import Mathlib

/-!
Verification of the ACC Supercharger cache-building pipeline.

Shallow embedding of:
- lib/cache-builder.js   (`isCacheStale`, `buildCompaniesCache`)
- lib/users-api.js       (`UsersAPI.displayUserName`, `UsersAPI.fetchAll`,
                          `UsersAPI.fetchProjectUsers`)
- lib/companies-api.js   (`CompaniesAPI.fetchAll`, `CompaniesAPI.fetchProjectCompanies`)
- lib/projects-api.js    (`ProjectsAPI.fetchAll`)
- background.js          (`triggerCacheBuild` single-flight orchestration)

JavaScript values that may be `undefined`/`null` are modelled with `Option`;
JS string truthiness (`""` is falsy) is modelled explicitly.  Asynchronous
HTTP calls are modelled by oracles mapping a request offset to a page
outcome, with a fuel argument bounding the pagination loop.
-/

namespace ACC

/-- JS truthiness of a possibly-absent string: `undefined`, `null` and `""`
are falsy. -/
def strTruthy : Option String → Bool
  | none => false
  | some s => s ≠ ""

/-- JS `a || b` on possibly-absent strings. -/
def jsOr (a b : Option String) : Option String :=
  if strTruthy a then a else b

/-- JS `x || ""`: the string itself when present, otherwise `""`. -/
def orEmpty : Option String → String
  | none => ""
  | some s => s

/-- JS whitespace test used by `String.prototype.trim` (ASCII fragment). -/
def isWsp (c : Char) : Bool :=
  c = ' ' || c = '\t' || c = '\n' || c = '\r'

/-- Model of JS `String.prototype.trim`: strip leading and trailing
whitespace. -/
def trimStr (s : String) : String :=
  ⟨((s.data.dropWhile isWsp).reverse.dropWhile isWsp).reverse⟩

/-- Model of JS `String.prototype.toLowerCase` (character-wise lowering). -/
def lowerStr (s : String) : String :=
  ⟨s.data.map Char.toLower⟩

/-- Lexicographic `≤` on character lists by code point: the model of JS
string relational comparison (`<` on strings, `localeCompare ≤ 0`). -/
def leChars : List Char → List Char → Bool
  | [], _ => true
  | _ :: _, [] => false
  | a :: as, b :: bs =>
    if a.toNat < b.toNat then true
    else if b.toNat < a.toNat then false
    else leChars as bs

/-- `a ≤ b` on strings, code-point-wise. -/
def strLe (a b : String) : Bool :=
  leChars a.data b.data

-- ── Comparison lemmas ────────────────────────────────────────────────────

theorem leChars_refl (l : List Char) : leChars l l = true := by
  induction l with
  | nil => rfl
  | cons a as ih => simp [leChars, ih]

theorem leChars_total (a b : List Char) :
    leChars a b = true ∨ leChars b a = true := by
  induction a generalizing b with
  | nil => left; simp [leChars]
  | cons x xs ih =>
    cases b with
    | nil => right; simp [leChars]
    | cons y ys =>
      rcases Nat.lt_trichotomy x.toNat y.toNat with h | h | h
      · left; simp [leChars, h]
      · rcases ih ys with h' | h'
        · left; simp [leChars, h, Nat.lt_irrefl, h']
        · right; simp [leChars, h, Nat.lt_irrefl, h']
      · right; simp [leChars, h]

theorem leChars_trans {a b c : List Char}
    (h1 : leChars a b = true) (h2 : leChars b c = true) :
    leChars a c = true := by
  induction a generalizing b c with
  | nil => simp [leChars]
  | cons x xs ih =>
    cases b with
    | nil => simp [leChars] at h1
    | cons y ys =>
      cases c with
      | nil => simp [leChars] at h2
      | cons z zs =>
        rcases Nat.lt_trichotomy x.toNat y.toNat with hxy | hxy | hxy <;>
          rcases Nat.lt_trichotomy y.toNat z.toNat with hyz | hyz | hyz
        · simp [leChars, Nat.lt_trans hxy hyz]
        · simp [leChars, hyz ▸ hxy]
        · simp [leChars, hyz, Nat.lt_asymm hyz] at h2
        · simp [leChars, hxy ▸ hyz]
        · simp [leChars, hxy, hyz, Nat.lt_irrefl] at h1 h2
          have hxz : x.toNat = z.toNat := hxy.trans hyz
          simp [leChars, hxz, Nat.lt_irrefl]
          exact ih h1 h2
        · simp [leChars, hyz, Nat.lt_asymm hyz] at h2
        · simp [leChars, hxy, Nat.lt_asymm hxy] at h1
        · simp [leChars, hxy, Nat.lt_asymm hxy] at h1
        · simp [leChars, hxy, Nat.lt_asymm hxy] at h1

theorem strLe_refl (s : String) : strLe s s = true :=
  leChars_refl s.data

theorem strLe_total (a b : String) : strLe a b = true ∨ strLe b a = true :=
  leChars_total a.data b.data

theorem strLe_trans {a b c : String}
    (h1 : strLe a b = true) (h2 : strLe b c = true) : strLe a c = true :=
  leChars_trans h1 h2

/-- When `strLe a b` fails, the two strings are distinct. -/
theorem strLe_false_ne {a b : String} (h : strLe a b = false) : a ≠ b := by
  intro he
  subst he
  rw [strLe_refl a] at h
  cases h

-- ── Stable sort (model of JS `Array.prototype.sort`) ─────────────────────

/-- Insert `x` into `l` before the first element `y` with `le x y`. -/
def insertSorted (le : α → α → Bool) (x : α) : List α → List α
  | [] => [x]
  | y :: ys => if le x y then x :: y :: ys else y :: insertSorted le x ys

/-- Stable insertion sort, the model of JS `Array.prototype.sort` with a
comparator (the JS sort is specified to be stable). -/
def sortJs (le : α → α → Bool) : List α → List α
  | [] => []
  | x :: xs => insertSorted le x (sortJs le xs)

theorem insertSorted_perm (le : α → α → Bool) (x : α) (l : List α) :
    (insertSorted le x l).Perm (x :: l) := by
  induction l with
  | nil => exact List.Perm.refl _
  | cons y ys ih =>
    by_cases h : le x y
    · simp [insertSorted, h]
    · simp only [insertSorted, h, if_false, Bool.false_eq_true]
      exact (List.Perm.cons y ih).trans (List.Perm.swap x y ys)

theorem sortJs_perm (le : α → α → Bool) (l : List α) :
    (sortJs le l).Perm l := by
  induction l with
  | nil => exact List.Perm.refl _
  | cons x xs ih =>
    exact (insertSorted_perm le x (sortJs le xs)).trans (List.Perm.cons x ih)

theorem mem_sortJs (le : α → α → Bool) (l : List α) (a : α) :
    a ∈ sortJs le l ↔ a ∈ l :=
  (sortJs_perm le l).mem_iff

theorem pairwise_insertSorted {le : α → α → Bool}
    (htot : ∀ a b, le a b = true ∨ le b a = true)
    (htrans : ∀ a b c, le a b = true → le b c = true → le a c = true)
    {x : α} {l : List α} (h : l.Pairwise (fun a b => le a b = true)) :
    (insertSorted le x l).Pairwise (fun a b => le a b = true) := by
  induction l with
  | nil => simp [insertSorted]
  | cons y ys ih =>
    rcases List.pairwise_cons.1 h with ⟨hy, hys⟩
    by_cases hxy : le x y = true
    · simp only [insertSorted, if_pos hxy]
      refine List.pairwise_cons.2 ⟨?_, h⟩
      intro b hb
      rcases List.mem_cons.1 hb with rfl | hb
      · exact hxy
      · exact htrans x y b hxy (hy b hb)
    · have hyx : le y x = true := (htot x y).resolve_left hxy
      simp only [insertSorted, if_neg hxy]
      refine List.pairwise_cons.2 ⟨?_, ih hys⟩
      intro b hb
      rcases List.mem_cons.1 ((insertSorted_perm le x ys).mem_iff.1 hb) with rfl | hb
      · exact hyx
      · exact hy b hb

theorem pairwise_sortJs {le : α → α → Bool}
    (htot : ∀ a b, le a b = true ∨ le b a = true)
    (htrans : ∀ a b c, le a b = true → le b c = true → le a c = true)
    (l : List α) :
    (sortJs le l).Pairwise (fun a b => le a b = true) := by
  induction l with
  | nil => simp [sortJs]
  | cons x xs ih => exact pairwise_insertSorted htot htrans ih

-- ── Stability of the sort ────────────────────────────────────────────────

theorem filter_insertSorted_pos {le : α → α → Bool} {p : α → Bool} {x : α}
    (hx : p x = true) (hkey : ∀ y, le x y = false → p y = false) (l : List α) :
    (insertSorted le x l).filter p = x :: l.filter p := by
  induction l with
  | nil => simp [insertSorted, hx]
  | cons y ys ih =>
    by_cases hxy : le x y = true
    · simp [insertSorted, if_pos hxy, List.filter_cons, hx]
    · have hpy : p y = false := hkey y (Bool.eq_false_iff.2 hxy)
      simp [insertSorted, if_neg hxy, List.filter_cons, hpy, ih]

theorem filter_insertSorted_neg {le : α → α → Bool} {p : α → Bool} {x : α}
    (hx : p x = false) (l : List α) :
    (insertSorted le x l).filter p = l.filter p := by
  induction l with
  | nil => simp [insertSorted, hx]
  | cons y ys ih =>
    by_cases hxy : le x y = true
    · simp [insertSorted, if_pos hxy, List.filter_cons, hx]
    · simp [insertSorted, if_neg hxy, List.filter_cons, ih]

/-- Comparator derived from a string key — the shape of every comparator in
the cache builder (`(a.name || "").toLowerCase().localeCompare(...)` and the
default string sort). -/
def keyLe (key : α → String) (a b : α) : Bool :=
  strLe (key a) (key b)

theorem keyLe_total (key : α → String) (a b : α) :
    keyLe key a b = true ∨ keyLe key b a = true :=
  strLe_total (key a) (key b)

theorem keyLe_trans (key : α → String) (a b c : α)
    (h1 : keyLe key a b = true) (h2 : keyLe key b c = true) :
    keyLe key a c = true :=
  strLe_trans h1 h2

/-- Stability of the sort: within each key class, the sorted list preserves
the input order (JS `Array.prototype.sort` is stable). -/
theorem sortJs_stable (key : α → String) (k : String) (l : List α) :
    (sortJs (keyLe key) l).filter (fun a => key a == k) =
      l.filter (fun a => key a == k) := by
  induction l with
  | nil => rfl
  | cons x xs ih =>
    by_cases hx : key x = k
    · rw [sortJs, filter_insertSorted_pos (by simp [hx])
        (fun y hy => by
          have hne : key x ≠ key y := strLe_false_ne hy
          have : key y ≠ k := fun hk => hne (by rw [hx, hk])
          simp [this])]
      simp [List.filter_cons, hx, ih]
    · rw [sortJs, filter_insertSorted_neg (by simp [hx])]
      simp [List.filter_cons, hx, ih]

-- ── Raw upstream entities (duck-typed API records) ───────────────────────

/-- Raw company record from the APS API (`{id, name}`). -/
structure RawCompany where
  id : Option String
  name : Option String
deriving Repr, DecidableEq

/-- Raw user / project-member record from the APS API.  Upstream responses
mix snake_case and camelCase field names, so both variants are carried. -/
structure RawUser where
  id : Option String
  name : Option String
  first_name : Option String
  firstName : Option String
  last_name : Option String
  lastName : Option String
  email : Option String
  company_id : Option String
  companyId : Option String
deriving Repr, DecidableEq

/-- Raw project record from the APS API (`{id, name, platform}`). -/
structure RawProject where
  id : Option String
  name : Option String
  platform : Option String
deriving Repr, DecidableEq

/-- An all-absent raw user, for building test records tersely. -/
def blankUser : RawUser :=
  ⟨none, none, none, none, none, none, none, none, none⟩

-- ── lib/users-api.js: displayUserName ────────────────────────────────────

/-- `UsersAPI.displayUserName`: `name` trimmed when non-empty, otherwise
trimmed `first_name || firstName` and `last_name || lastName` joined by a
space and trimmed again. -/
def displayUserName (user : RawUser) : String :=
  let name := trimStr (orEmpty user.name)
  if name ≠ "" then name
  else
    let first := trimStr (orEmpty (jsOr user.first_name user.firstName))
    let last := trimStr (orEmpty (jsOr user.last_name user.lastName))
    trimStr (first ++ " " ++ last)

-- ── lib/cache-builder.js: isCacheStale ───────────────────────────────────

/-- `CACHE_MAX_AGE_MS` from lib/aps-constants.js: 2 hours. -/
def CACHE_MAX_AGE_MS : Int := 2 * 60 * 60 * 1000

/-- `isCacheStale(timestamp)`: JS `!timestamp || Date.now() - timestamp >
CACHE_MAX_AGE_MS`, with `Date.now()` passed explicitly.  A missing
timestamp is `none`; a numeric timestamp of `0` is JS-falsy. -/
def isCacheStale (timestamp : Option Int) (now : Int) : Bool :=
  match timestamp with
  | none => true
  | some t => t == 0 || now - t > CACHE_MAX_AGE_MS

-- ── Insertion-ordered association maps (JS plain objects / Sets) ─────────

/-- Lookup in an insertion-ordered association list (JS `obj[k]`). -/
def alookup (m : List (String × α)) (k : String) : Option α :=
  match m with
  | [] => none
  | (k', v) :: rest => if k' = k then some v else alookup rest k

/-- Update-or-append (JS `obj[k] = f(obj[k])`); an existing key keeps its
position, a new key is appended, matching JS object key insertion order. -/
def aupsert (m : List (String × α)) (k : String) (f : Option α → α) :
    List (String × α) :=
  match m with
  | [] => [(k, f none)]
  | (k', v) :: rest =>
    if k' = k then (k', f (some v)) :: rest else (k', v) :: aupsert rest k f

/-- JS `Set.prototype.add` on an insertion-ordered list. -/
def setAdd (l : List String) (x : String) : List String :=
  if x ∈ l then l else l ++ [x]

/-- The keys of an association list. -/
def akeys (m : List (String × α)) : List String :=
  m.map (·.1)

theorem alookup_aupsert_self (m : List (String × α)) (k : String)
    (f : Option α → α) :
    alookup (aupsert m k f) k = some (f (alookup m k)) := by
  induction m with
  | nil => simp [aupsert, alookup]
  | cons e rest ih =>
    obtain ⟨k', v⟩ := e
    by_cases h : k' = k
    · simp [aupsert, alookup, h]
    · simp [aupsert, alookup, h, ih]

theorem alookup_aupsert_ne (m : List (String × α)) {k k' : String}
    (hne : k ≠ k') (f : Option α → α) :
    alookup (aupsert m k f) k' = alookup m k' := by
  induction m with
  | nil => simp [aupsert, alookup, hne]
  | cons e rest ih =>
    obtain ⟨k0, v⟩ := e
    by_cases h : k0 = k
    · subst h
      simp [aupsert, alookup, hne, ih]
    · simp [aupsert, alookup, h, ih]

theorem akeys_aupsert (m : List (String × α)) (k : String) (f : Option α → α) :
    akeys (aupsert m k f) = if k ∈ akeys m then akeys m else akeys m ++ [k] := by
  induction m with
  | nil => simp [aupsert, akeys]
  | cons e rest ih =>
    obtain ⟨k0, v⟩ := e
    by_cases h : k0 = k
    · subst h
      simp [aupsert, akeys]
    · have h' : ¬ (k = k0) := fun he => h he.symm
      simp only [aupsert, if_neg h, akeys, List.map_cons]
      simp only [akeys] at ih
      rw [ih]
      by_cases hm : k ∈ rest.map (·.1)
      · simp [hm, h']
      · simp [hm, h']

theorem nodup_akeys_aupsert (m : List (String × α)) (k : String)
    (f : Option α → α) (h : (akeys m).Nodup) : (akeys (aupsert m k f)).Nodup := by
  rw [akeys_aupsert]
  by_cases hm : k ∈ akeys m
  · simpa [hm] using h
  · simp only [hm, if_false]
    simpa [List.nodup_append] using ⟨h, hm⟩

/-- With distinct keys, a binding present in the list is returned by lookup. -/
theorem alookup_of_mem_nodup {m : List (String × α)} {k : String} {v : α}
    (hnd : (akeys m).Nodup) (hm : (k, v) ∈ m) : alookup m k = some v := by
  induction m with
  | nil => cases hm
  | cons e rest ih =>
    obtain ⟨k0, v0⟩ := e
    rcases List.mem_cons.1 hm with he | hm'
    · cases he
      simp [alookup]
    · have hk0 : k0 ≠ k := by
        intro he
        subst he
        have hmem : k0 ∈ akeys rest := by
          simpa [akeys] using List.mem_map_of_mem (·.1) hm'
        have hnot : k0 ∉ akeys rest :=
          (List.nodup_cons.1 (by simpa [akeys] using hnd)).1
        exact hnot hmem
      have hnd' : (akeys rest).Nodup := by
        simpa [akeys] using hnd.of_cons
      simp [alookup, hk0, ih hnd' hm']

/-- JS plain assignment `obj[k] = v`: update in place or append. -/
def aset (m : List (String × α)) (k : String) (v : α) : List (String × α) :=
  aupsert m k (fun _ => v)

/-- A successful lookup exhibits a binding in the list. -/
theorem mem_of_alookup_some {m : List (String × α)} {k : String} {v : α}
    (h : alookup m k = some v) : (k, v) ∈ m := by
  induction m with
  | nil => cases h
  | cons e rest ih =>
    obtain ⟨k0, v0⟩ := e
    by_cases hk : k0 = k
    · subst hk
      simp [alookup] at h
      simp [h]
    · simp [alookup, hk] at h
      exact List.mem_cons_of_mem _ (ih h)

-- ── Assembled cache record types (lib/cache-builder.js output shapes) ────

/-- Member record embedded under a company (`{name, uuid, email}`). -/
structure MemberRec where
  name : String
  uuid : String
  email : String
deriving Repr, DecidableEq

/-- Member record in the project-rooted cache
(`{name, uuid, email, companyId}`). -/
structure ProjMemberRec where
  name : String
  uuid : String
  email : String
  companyId : String
deriving Repr, DecidableEq

/-- Project record embedded under a company
(`{name, uuid, platform, members}`). -/
structure ProjectRec where
  name : String
  uuid : String
  platform : String
  members : List MemberRec
deriving Repr, DecidableEq

/-- Company reference embedded under a project (`{name, uuid}`). -/
structure CompanyRef where
  name : String
  uuid : String
deriving Repr, DecidableEq

/-- One entry of `companiesCache`. -/
structure CompanyEntry where
  name : String
  uuid : String
  projects : List ProjectRec
  users : List MemberRec
deriving Repr, DecidableEq

/-- One entry of `projectsCache`. -/
structure ProjectEntry where
  name : String
  uuid : String
  platform : String
  members : List ProjMemberRec
  companies : List CompanyRef
deriving Repr, DecidableEq

-- Comparators: every `.sort` in the builder compares
-- `(a.name || "").toLowerCase()` against the same for `b` (the records'
-- `name` field is always a string here, so `a.name || ""` is `a.name`),
-- and the project-id sort uses the default JS string comparison.

def memberKey (m : MemberRec) : String := lowerStr m.name
def memberLe : MemberRec → MemberRec → Bool := keyLe memberKey
def projMemberKey (m : ProjMemberRec) : String := lowerStr m.name
def projMemberLe : ProjMemberRec → ProjMemberRec → Bool := keyLe projMemberKey
def projRecKey (p : ProjectRec) : String := lowerStr p.name
def projRecLe : ProjectRec → ProjectRec → Bool := keyLe projRecKey
def companyRefKey (c : CompanyRef) : String := lowerStr c.name
def companyRefLe : CompanyRef → CompanyRef → Bool := keyLe companyRefKey
def companyKey (c : CompanyEntry) : String := lowerStr c.name
def companyLe : CompanyEntry → CompanyEntry → Bool := keyLe companyKey
def projEntryKey (p : ProjectEntry) : String := lowerStr p.name
def projEntryLe : ProjectEntry → ProjectEntry → Bool := keyLe projEntryKey
def strIdKey (s : String) : String := s
def strIdLe : String → String → Bool := keyLe strIdKey

-- ── lib/cache-builder.js: buildCompaniesCache ────────────────────────────

/-- Step 2: `usersByCompany[user.company_id || user.companyId].push(user)`
for every user with a truthy resolved company id. -/
def usersByCompanyStep (m : List (String × List RawUser)) (user : RawUser) :
    List (String × List RawUser) :=
  let companyId := jsOr user.company_id user.companyId
  if strTruthy companyId then
    aupsert m (orEmpty companyId) (fun o => (o.getD []) ++ [user])
  else m

def buildUsersByCompany (users : List RawUser) : List (String × List RawUser) :=
  users.foldl usersByCompanyStep []

/-- Step 2: `projectsById[project.id] = project` for truthy ids. -/
def buildProjectsById (projects : List RawProject) : List (String × RawProject) :=
  projects.foldl
    (fun m p => if strTruthy p.id then aset m (orEmpty p.id) p else m) []

/-- Step 2: `companiesById[comp.id] = comp` for truthy ids. -/
def buildCompaniesById (companies : List RawCompany) :
    List (String × RawCompany) :=
  companies.foldl
    (fun m c => if strTruthy c.id then aset m (orEmpty c.id) c else m) []

/-- Step 3 body: for one project, record `(comp.id, project.id)` pairs from
the per-project companies fetch and cache the per-project members fetch. -/
def mapProjectStep (fpc : String → List RawCompany)
    (fpu : String → List RawUser)
    (acc : List (String × List String) × List (String × List RawUser))
    (project : RawProject) :
    List (String × List String) × List (String × List RawUser) :=
  if strTruthy project.id then
    let pid := orEmpty project.id
    let pibc := (fpc pid).foldl
      (fun m comp =>
        if strTruthy comp.id then
          aupsert m (orEmpty comp.id) (fun o => setAdd (o.getD []) pid)
        else m)
      acc.1
    (pibc, aset acc.2 pid (fpu pid))
  else acc

/-- Step 3: `projectIdsByCompany` and `projectUsersCache` over all projects. -/
def buildProjectMaps (projects : List RawProject)
    (fpc : String → List RawCompany) (fpu : String → List RawUser) :
    List (String × List String) × List (String × List RawUser) :=
  projects.foldl (mapProjectStep fpc fpu) ([], [])

/-- Projection `{name: displayUserName(u), uuid: u.id, email: u.email || ""}`. -/
def mkMemberRec (u : RawUser) : MemberRec :=
  ⟨displayUserName u, orEmpty u.id, orEmpty u.email⟩

/-- Projection retaining `companyId` (project-rooted member). -/
def mkProjMemberRec (pu : RawUser) : ProjMemberRec :=
  ⟨displayUserName pu, orEmpty pu.id, orEmpty pu.email, orEmpty pu.companyId⟩

/-- Step 4: `projectIdsByCompany[comp.id]` spread into an array and sorted
with the default JS string sort (`[...set].sort()`), or `[]`. -/
def companyProjectIds (projectIdsByCompany : List (String × List String))
    (cid : String) : List String :=
  match alookup projectIdsByCompany cid with
  | some s => sortJs strIdLe s
  | none => []

/-- Step 4: the full member roster cached for `pid`
(`projectUsersCache[pid] || []`). -/
def rosterOf (projectUsersCache : List (String × List RawUser))
    (pid : String) : List RawUser :=
  (alookup projectUsersCache pid).getD []

/-- Step 4: one project record embedded under the company `cid`, with
members filtered to `pu.companyId === comp.id && pu.id`. -/
def projRecFor (projectsById : List (String × RawProject))
    (projectUsersCache : List (String × List RawUser))
    (cid pid : String) : ProjectRec :=
  let project := (alookup projectsById pid).getD ⟨none, none, none⟩
  { name := orEmpty project.name
    uuid := pid
    platform := orEmpty project.platform
    members := sortJs memberLe
      (((rosterOf projectUsersCache pid).filter
          (fun pu => pu.companyId == some cid && strTruthy pu.id)).map
        mkMemberRec) }

/-- Step 4 body: assemble one `companiesCache` entry (for a truthy
`comp.id`). -/
def mkCompanyEntry (usersByCompany : List (String × List RawUser))
    (projectsById : List (String × RawProject))
    (projectIdsByCompany : List (String × List String))
    (projectUsersCache : List (String × List RawUser))
    (comp : RawCompany) : CompanyEntry :=
  let cid := orEmpty comp.id
  { name := orEmpty comp.name
    uuid := cid
    projects := sortJs projRecLe
      ((companyProjectIds projectIdsByCompany cid).map
        (projRecFor projectsById projectUsersCache cid))
    users := sortJs memberLe
      ((((alookup usersByCompany cid).getD []).filter
          (fun u => strTruthy u.id)).map mkMemberRec) }

/-- Step 5: company reference for `cid`, resolving the name through
`companiesById` (an unknown id keeps an empty name). -/
def companyRefFor (companiesById : List (String × RawCompany))
    (cid : String) : CompanyRef :=
  match alookup companiesById cid with
  | some comp => ⟨orEmpty comp.name, cid⟩
  | none => ⟨"", cid⟩

/-- Step 5: the reverse lookup — every company id whose project-id set
contains `pid`, in association-map key order. -/
def companyIdsForProject (projectIdsByCompany : List (String × List String))
    (pid : String) : List String :=
  (projectIdsByCompany.filter (fun e => decide (pid ∈ e.2))).map (·.1)

/-- Step 5 body: assemble one `projectsCache` entry (for a truthy
`project.id`). -/
def mkProjectEntry (companiesById : List (String × RawCompany))
    (projectIdsByCompany : List (String × List String))
    (projectUsersCache : List (String × List RawUser))
    (project : RawProject) : ProjectEntry :=
  let pid := orEmpty project.id
  { name := orEmpty project.name
    uuid := pid
    platform := orEmpty project.platform
    members := sortJs projMemberLe
      (((rosterOf projectUsersCache pid).filter
          (fun pu => strTruthy pu.id)).map mkProjMemberRec)
    companies := sortJs companyRefLe
      ((companyIdsForProject projectIdsByCompany pid).map
        (companyRefFor companiesById)) }

/-- `companiesResult` in fetch order, before the final top-level sort. -/
def companiesUnsorted (companies : List RawCompany) (users : List RawUser)
    (projects : List RawProject)
    (fpc : String → List RawCompany) (fpu : String → List RawUser) :
    List CompanyEntry :=
  let maps := buildProjectMaps projects fpc fpu
  (companies.filter (fun c => strTruthy c.id)).map
    (mkCompanyEntry (buildUsersByCompany users) (buildProjectsById projects)
      maps.1 maps.2)

/-- `projectsResult` in fetch order, before the final top-level sort. -/
def projectsUnsorted (companies : List RawCompany)
    (projects : List RawProject)
    (fpc : String → List RawCompany) (fpu : String → List RawUser) :
    List ProjectEntry :=
  let maps := buildProjectMaps projects fpc fpu
  (projects.filter (fun p => strTruthy p.id)).map
    (mkProjectEntry (buildCompaniesById companies) maps.1 maps.2)

/-- `buildCompaniesCache`, with the three account-level collections given
(the account-level fetches having succeeded) and the per-project fetch
results supplied by `fpc` / `fpu`. -/
def buildCompaniesCache (companies : List RawCompany) (users : List RawUser)
    (projects : List RawProject)
    (fpc : String → List RawCompany) (fpu : String → List RawUser) :
    List CompanyEntry × List ProjectEntry :=
  (sortJs companyLe (companiesUnsorted companies users projects fpc fpu),
   sortJs projEntryLe (projectsUnsorted companies projects fpc fpu))

-- ── Pagination fetchers (lib/companies-api.js, users-api.js, projects-api.js)

/-- Outcome of one page request: a successful JSON array, a non-success
HTTP response (status and body), or a thrown error (network failure or
invalid JSON).  A non-array JSON payload behaves like an empty array at
every use site and is modelled as `ok []`. -/
inductive PageResult (α : Type) where
  | ok (items : List α)
  | httpErr (status : Nat) (body : String)
  | thrown
deriving Repr

/-- Error escaping an account-level fetcher: the `Error` built from a
non-success response (carrying status code and body), or any other thrown
exception propagating through. -/
inductive FetchErr where
  | api (status : Nat) (body : String)
  | exn
deriving Repr, DecidableEq

/-- Shared account-level pagination loop (`fetchAll` in companies-api.js,
users-api.js and projects-api.js differ only in URL and limit): request
offsets 0, limit, 2·limit, …; non-success throws; an empty page stops; a
short page is appended and stops.  `fuel` bounds the iteration count. -/
def accountFetchGo (limit : Nat) (pages : Nat → PageResult α) :
    Nat → Nat → List α → Except FetchErr (List α)
  | 0, _, acc => .ok acc
  | fuel + 1, offset, acc =>
    match pages offset with
    | .httpErr s b => .error (.api s b)
    | .thrown => .error .exn
    | .ok batch =>
      if batch.isEmpty then .ok acc
      else if batch.length < limit then .ok (acc ++ batch)
      else accountFetchGo limit pages fuel (offset + limit) (acc ++ batch)

/-- `CompaniesAPI.fetchAll` (limit 100). -/
def CompaniesAPI.fetchAll (pages : Nat → PageResult RawCompany) (fuel : Nat) :
    Except FetchErr (List RawCompany) :=
  accountFetchGo 100 pages fuel 0 []

/-- `UsersAPI.fetchAll` (limit 100). -/
def UsersAPI.fetchAll (pages : Nat → PageResult RawUser) (fuel : Nat) :
    Except FetchErr (List RawUser) :=
  accountFetchGo 100 pages fuel 0 []

/-- `ProjectsAPI.fetchAll` (limit 200; `payload.results || payload` is the
page's array). -/
def ProjectsAPI.fetchAll (pages : Nat → PageResult RawProject) (fuel : Nat) :
    Except FetchErr (List RawProject) :=
  accountFetchGo 200 pages fuel 0 []

/-- Inner loop of `CompaniesAPI.fetchProjectCompanies` (limit 100): a
non-success response breaks out of the loop keeping the collected pages; a
thrown error propagates to the surrounding `try`/`catch`. -/
def fetchProjectCompaniesGo (pages : Nat → PageResult RawCompany) :
    Nat → Nat → List RawCompany → Except Unit (List RawCompany)
  | 0, _, acc => .ok acc
  | fuel + 1, offset, acc =>
    match pages offset with
    | .httpErr _ _ => .ok acc
    | .thrown => .error ()
    | .ok batch =>
      if batch.isEmpty then .ok acc
      else if batch.length < 100 then .ok (acc ++ batch)
      else fetchProjectCompaniesGo pages fuel (offset + 100) (acc ++ batch)

/-- `CompaniesAPI.fetchProjectCompanies`: the whole pagination loop is
wrapped in `try { … } catch { return [] }`. -/
def CompaniesAPI.fetchProjectCompanies (pages : Nat → PageResult RawCompany)
    (fuel : Nat) : List RawCompany :=
  match fetchProjectCompaniesGo pages fuel 0 [] with
  | .ok l => l
  | .error _ => []

/-- Page payload of the project-users endpoint:
`{results, pagination: {totalResults}}` (after `payload.results || []`). -/
structure UsersPage where
  results : List RawUser
  totalResults : Option Nat
deriving Repr

/-- Outcome of one project-users page request. -/
inductive UPageResult where
  | ok (payload : UsersPage)
  | httpErr (status : Nat) (body : String)
  | thrown
deriving Repr

/-- `UsersAPI.fetchProjectUsers` loop (limit 100): the `try`/`catch` sits
inside the loop, so both a non-success response and a thrown error `break`
and keep the users collected so far; the cursor advances by
`results.length` and also stops once `offset >= totalResults`. -/
def fetchProjectUsersGo (pages : Nat → UPageResult) :
    Nat → Nat → List RawUser → List RawUser
  | 0, _, acc => acc
  | fuel + 1, offset, acc =>
    match pages offset with
    | .httpErr _ _ => acc
    | .thrown => acc
    | .ok payload =>
      if payload.results.isEmpty then acc
      else
        let acc' := acc ++ payload.results
        let offset' := offset + payload.results.length
        let stopByTotal :=
          match payload.totalResults with
          | some t => decide (offset' ≥ t)
          | none => false
        if stopByTotal then acc'
        else if payload.results.length < 100 then acc'
        else fetchProjectUsersGo pages fuel offset' acc'

/-- `UsersAPI.fetchProjectUsers`. -/
def UsersAPI.fetchProjectUsers (pages : Nat → UPageResult) (fuel : Nat) :
    List RawUser :=
  fetchProjectUsersGo pages fuel 0 []

-- ── Pagination lemmas ────────────────────────────────────────────────────

/-- Concatenation of the first `k` pages in request order. -/
def pagesConcat (items : Nat → List α) : Nat → List α
  | 0 => []
  | k + 1 => items 0 ++ pagesConcat (fun i => items (i + 1)) k

theorem accountFetchGo_step {α : Type} (limit : Nat)
    (pages : Nat → PageResult α) (f off : Nat) (acc batch : List α)
    (h : pages off = .ok batch) :
    accountFetchGo limit pages (f + 1) off acc =
      if batch.isEmpty then .ok acc
      else if batch.length < limit then .ok (acc ++ batch)
      else accountFetchGo limit pages f (off + limit) (acc ++ batch) := by
  rw [accountFetchGo, h]

theorem fetchProjectCompaniesGo_step (pages : Nat → PageResult RawCompany)
    (f off : Nat) (acc batch : List RawCompany)
    (h : pages off = .ok batch) :
    fetchProjectCompaniesGo pages (f + 1) off acc =
      if batch.isEmpty then .ok acc
      else if batch.length < 100 then .ok (acc ++ batch)
      else fetchProjectCompaniesGo pages f (off + 100) (acc ++ batch) := by
  rw [fetchProjectCompaniesGo, h]

theorem fetchProjectUsersGo_step (pages : Nat → UPageResult)
    (f off : Nat) (acc : List RawUser) (payload : UsersPage)
    (h : pages off = .ok payload) :
    fetchProjectUsersGo pages (f + 1) off acc =
      if payload.results.isEmpty then acc
      else
        let acc' := acc ++ payload.results
        let offset' := off + payload.results.length
        let stopByTotal :=
          match payload.totalResults with
          | some t => decide (offset' ≥ t)
          | none => false
        if stopByTotal then acc'
        else if payload.results.length < 100 then acc'
        else fetchProjectUsersGo pages f offset' acc' := by
  rw [fetchProjectUsersGo, h]

theorem accountFetchGo_ok {α : Type} (limit : Nat)
    (pages : Nat → PageResult α) (k : Nat) :
    ∀ (items : Nat → List α) (last : List α) (fuel off : Nat) (acc : List α),
      (∀ i, i < k → pages (off + i * limit) = .ok (items i)
        ∧ (items i).length = limit) →
      pages (off + k * limit) = .ok last →
      last.length < limit → k < fuel →
      accountFetchGo limit pages fuel off acc =
        .ok (acc ++ pagesConcat items k ++ last) := by
  induction k with
  | zero =>
    intro items last fuel off acc _hfull hlast hshort hfuel
    obtain ⟨f, rfl⟩ : ∃ f, fuel = f + 1 := ⟨fuel - 1, by omega⟩
    simp only [Nat.zero_mul, Nat.add_zero] at hlast
    rw [accountFetchGo, hlast]
    by_cases he : last.isEmpty
    · have : last = [] := by
        cases last
        · rfl
        · simp [List.isEmpty] at he
      subst this
      simp [pagesConcat]
    · simp only [Bool.not_eq_true] at he
      simp [he, hshort, pagesConcat]
  | succ k ih =>
    intro items last fuel off acc hfull hlast hshort hfuel
    obtain ⟨f, rfl⟩ : ∃ f, fuel = f + 1 := ⟨fuel - 1, by omega⟩
    have h0 := hfull 0 (Nat.succ_pos k)
    simp only [Nat.zero_mul, Nat.add_zero] at h0
    rw [accountFetchGo_step limit pages f off acc (items 0) h0.1]
    have hne : (items 0).isEmpty = false := by
      cases hitems : items 0
      · rw [hitems] at h0
        simp at h0
        omega
      · simp [hitems]
    have hnotshort : ¬ ((items 0).length < limit) := by
      rw [h0.2]
      omega
    rw [if_neg (by simp [hne]), if_neg hnotshort]
    have hrest := ih (fun i => items (i + 1)) last f (off + limit) (acc ++ items 0)
      (fun i hi => by
        have hh := hfull (i + 1) (by omega)
        refine ⟨?_, hh.2⟩
        rw [show off + limit + i * limit = off + (i + 1) * limit by ring]
        exact hh.1)
      (by
        rw [show off + limit + k * limit = off + (k + 1) * limit by ring]
        exact hlast)
      hshort (by omega)
    rw [hrest]
    simp [pagesConcat]

theorem accountFetchGo_httpErr {α : Type} (limit : Nat) (hl : 0 < limit)
    (pages : Nat → PageResult α) (k : Nat) :
    ∀ (items : Nat → List α) (s : Nat) (b : String) (fuel off : Nat) (acc : List α),
      (∀ i, i < k → pages (off + i * limit) = .ok (items i)
        ∧ (items i).length = limit) →
      pages (off + k * limit) = .httpErr s b → k < fuel →
      accountFetchGo limit pages fuel off acc = .error (.api s b) := by
  induction k with
  | zero =>
    intro items s b fuel off acc _hfull hlast hfuel
    obtain ⟨f, rfl⟩ : ∃ f, fuel = f + 1 := ⟨fuel - 1, by omega⟩
    simp only [Nat.zero_mul, Nat.add_zero] at hlast
    rw [accountFetchGo, hlast]
  | succ k ih =>
    intro items s b fuel off acc hfull hlast hfuel
    obtain ⟨f, rfl⟩ : ∃ f, fuel = f + 1 := ⟨fuel - 1, by omega⟩
    have h0 := hfull 0 (Nat.succ_pos k)
    simp only [Nat.zero_mul, Nat.add_zero] at h0
    rw [accountFetchGo_step limit pages f off acc (items 0) h0.1]
    have hne : (items 0).isEmpty = false := by
      cases hitems : items 0
      · rw [hitems] at h0
        simp at h0
        omega
      · simp [hitems]
    have hnotshort : ¬ ((items 0).length < limit) := by
      rw [h0.2]
      omega
    rw [if_neg (by simp [hne]), if_neg hnotshort]
    exact ih (fun i => items (i + 1)) s b f (off + limit) (acc ++ items 0)
      (fun i hi => by
        have hh := hfull (i + 1) (by omega)
        refine ⟨?_, hh.2⟩
        rw [show off + limit + i * limit = off + (i + 1) * limit by ring]
        exact hh.1)
      (by
        rw [show off + limit + k * limit = off + (k + 1) * limit by ring]
        exact hlast)
      (by omega)

theorem fetchProjectCompaniesGo_httpErr (pages : Nat → PageResult RawCompany)
    (k : Nat) :
    ∀ (items : Nat → List RawCompany) (s : Nat) (b : String)
      (fuel off : Nat) (acc : List RawCompany),
      (∀ i, i < k → pages (off + i * 100) = .ok (items i)
        ∧ (items i).length = 100) →
      pages (off + k * 100) = .httpErr s b → k < fuel →
      fetchProjectCompaniesGo pages fuel off acc =
        .ok (acc ++ pagesConcat items k) := by
  induction k with
  | zero =>
    intro items s b fuel off acc _hfull hlast hfuel
    obtain ⟨f, rfl⟩ : ∃ f, fuel = f + 1 := ⟨fuel - 1, by omega⟩
    simp only [Nat.zero_mul, Nat.add_zero] at hlast
    rw [fetchProjectCompaniesGo, hlast]
    simp [pagesConcat]
  | succ k ih =>
    intro items s b fuel off acc hfull hlast hfuel
    obtain ⟨f, rfl⟩ : ∃ f, fuel = f + 1 := ⟨fuel - 1, by omega⟩
    have h0 := hfull 0 (Nat.succ_pos k)
    simp only [Nat.zero_mul, Nat.add_zero] at h0
    rw [fetchProjectCompaniesGo_step pages f off acc (items 0) h0.1]
    have hne : (items 0).isEmpty = false := by
      cases hitems : items 0
      · rw [hitems] at h0
        simp at h0
      · simp [hitems]
    have hnotshort : ¬ ((items 0).length < 100) := by
      rw [h0.2]
      omega
    rw [if_neg (by simp [hne]), if_neg hnotshort]
    have hrest := ih (fun i => items (i + 1)) s b f (off + 100) (acc ++ items 0)
      (fun i hi => by
        have hh := hfull (i + 1) (by omega)
        refine ⟨?_, hh.2⟩
        rw [show off + 100 + i * 100 = off + (i + 1) * 100 by ring]
        exact hh.1)
      (by
        rw [show off + 100 + k * 100 = off + (k + 1) * 100 by ring]
        exact hlast)
      (by omega)
    rw [hrest]
    simp [pagesConcat]

theorem fetchProjectCompaniesGo_thrown (pages : Nat → PageResult RawCompany)
    (k : Nat) :
    ∀ (items : Nat → List RawCompany) (fuel off : Nat) (acc : List RawCompany),
      (∀ i, i < k → pages (off + i * 100) = .ok (items i)
        ∧ (items i).length = 100) →
      pages (off + k * 100) = .thrown → k < fuel →
      fetchProjectCompaniesGo pages fuel off acc = .error () := by
  induction k with
  | zero =>
    intro items fuel off acc _hfull hlast hfuel
    obtain ⟨f, rfl⟩ : ∃ f, fuel = f + 1 := ⟨fuel - 1, by omega⟩
    simp only [Nat.zero_mul, Nat.add_zero] at hlast
    rw [fetchProjectCompaniesGo, hlast]
  | succ k ih =>
    intro items fuel off acc hfull hlast hfuel
    obtain ⟨f, rfl⟩ : ∃ f, fuel = f + 1 := ⟨fuel - 1, by omega⟩
    have h0 := hfull 0 (Nat.succ_pos k)
    simp only [Nat.zero_mul, Nat.add_zero] at h0
    rw [fetchProjectCompaniesGo_step pages f off acc (items 0) h0.1]
    have hne : (items 0).isEmpty = false := by
      cases hitems : items 0
      · rw [hitems] at h0
        simp at h0
      · simp [hitems]
    have hnotshort : ¬ ((items 0).length < 100) := by
      rw [h0.2]
      omega
    rw [if_neg (by simp [hne]), if_neg hnotshort]
    exact ih (fun i => items (i + 1)) f (off + 100) (acc ++ items 0)
      (fun i hi => by
        have hh := hfull (i + 1) (by omega)
        refine ⟨?_, hh.2⟩
        rw [show off + 100 + i * 100 = off + (i + 1) * 100 by ring]
        exact hh.1)
      (by
        rw [show off + 100 + k * 100 = off + (k + 1) * 100 by ring]
        exact hlast)
      (by omega)

theorem fetchProjectUsersGo_stops (pages : Nat → UPageResult) (k : Nat) :
    ∀ (items : Nat → List RawUser) (fuel off : Nat) (acc : List RawUser),
      (∀ i, i < k → pages (off + i * 100) = .ok ⟨items i, none⟩
        ∧ (items i).length = 100) →
      ((∃ s b, pages (off + k * 100) = .httpErr s b)
        ∨ pages (off + k * 100) = .thrown) → k < fuel →
      fetchProjectUsersGo pages fuel off acc = acc ++ pagesConcat items k := by
  induction k with
  | zero =>
    intro items fuel off acc _hfull hlast hfuel
    obtain ⟨f, rfl⟩ : ∃ f, fuel = f + 1 := ⟨fuel - 1, by omega⟩
    simp only [Nat.zero_mul, Nat.add_zero] at hlast
    rcases hlast with ⟨s, b, hsb⟩ | hth
    · rw [fetchProjectUsersGo, hsb]
      simp [pagesConcat]
    · rw [fetchProjectUsersGo, hth]
      simp [pagesConcat]
  | succ k ih =>
    intro items fuel off acc hfull hlast hfuel
    obtain ⟨f, rfl⟩ : ∃ f, fuel = f + 1 := ⟨fuel - 1, by omega⟩
    have h0 := hfull 0 (Nat.succ_pos k)
    simp only [Nat.zero_mul, Nat.add_zero] at h0
    rw [fetchProjectUsersGo_step pages f off acc ⟨items 0, none⟩ h0.1]
    have hne : (items 0).isEmpty = false := by
      cases hitems : items 0
      · rw [hitems] at h0
        simp at h0
      · simp [hitems]
    have hnotshort : ¬ ((items 0).length < 100) := by
      rw [h0.2]
      omega
    simp only [hne, Bool.false_eq_true, if_false, if_neg hnotshort]
    have hrest := ih (fun i => items (i + 1)) f (off + (items 0).length)
      (acc ++ items 0)
      (fun i hi => by
        have hh := hfull (i + 1) (by omega)
        refine ⟨?_, hh.2⟩
        rw [h0.2, show off + 100 + i * 100 = off + (i + 1) * 100 by ring]
        exact hh.1)
      (by
        rw [h0.2, show off + 100 + k * 100 = off + (k + 1) * 100 by ring]
        exact hlast)
      (by omega)
    rw [hrest]
    simp [pagesConcat]

-- ── background.js: triggerCacheBuild orchestration ───────────────────────

/-- One `chrome.storage.local.set` call of the orchestrator: both caches
and both timestamps, written together. -/
structure StorageWrite where
  companiesCache : List CompanyEntry
  companiesCacheTimestamp : Int
  projectsCache : List ProjectEntry
  projectsCacheTimestamp : Int
deriving Repr, DecidableEq

/-- Persisted `chrome.storage.local` keys relevant to the caches. -/
structure StorageState where
  companiesCache : Option (List CompanyEntry)
  companiesCacheTimestamp : Option Int
  projectsCache : Option (List ProjectEntry)
  projectsCacheTimestamp : Option Int
deriving Repr, DecidableEq

/-- Apply one atomic storage write. -/
def applyWrite (_s : StorageState) (w : StorageWrite) : StorageState :=
  ⟨some w.companiesCache, some w.companiesCacheTimestamp,
   some w.projectsCache, some w.projectsCacheTimestamp⟩

/-- Environment of one `triggerCacheBuild` invocation: the outcome of
`ensureToken()` (which touches only session storage), the session
`accAccountId`, the outcome of the awaited `buildCompaniesCache`, and
`Date.now()` at write time. -/
structure BuildEnv where
  tokenResult : Except String String
  accountId : Option String
  buildResult : Except String (List CompanyEntry × List ProjectEntry)
  now : Int

/-- Module-scoped orchestrator state: the `cacheBuilding` single-flight
flag and the persisted local storage. -/
structure OrchState where
  cacheBuilding : Bool
  storage : StorageState
deriving Repr, DecidableEq

/-- Observable outcome of one invocation: settled result, final state, the
local-storage writes performed, and the await points reached (token
acquisition, cache build, storage write). -/
structure TriggerOutcome where
  result : Except String (List CompanyEntry)
  state : OrchState
  writes : List StorageWrite
  steps : List String

/-- Body of `triggerCacheBuild` after the guard: the `try` block plus the
`finally` that clears `cacheBuilding`.  Entered with the flag set. -/
def triggerBody (env : BuildEnv) (s : OrchState) : TriggerOutcome :=
  match env.tokenResult with
  | .error e => ⟨.error e, ⟨false, s.storage⟩, [], ["ensureToken"]⟩
  | .ok _tok =>
    if strTruthy env.accountId = false then
      ⟨.error "No account ID configured.", ⟨false, s.storage⟩, [],
        ["ensureToken"]⟩
    else
      match env.buildResult with
      | .error e =>
        ⟨.error e, ⟨false, s.storage⟩, [],
          ["ensureToken", "buildCompaniesCache"]⟩
      | .ok (cc, pc) =>
        let w : StorageWrite := ⟨cc, env.now, pc, env.now⟩
        ⟨.ok cc, ⟨false, applyWrite s.storage w⟩, [w],
          ["ensureToken", "buildCompaniesCache", "storage.set"]⟩

/-- `triggerCacheBuild`: fail fast with a distinguishable error while a
build is in flight, otherwise set the flag and run the body. -/
def triggerCacheBuild (env : BuildEnv) (s : OrchState) : TriggerOutcome :=
  if s.cacheBuilding then
    ⟨.error "Cache build already in progress.", s, [], []⟩
  else
    triggerBody env { s with cacheBuilding := true }

/-- Interleaving of two invocations in the single-threaded event loop: the
first passes the guard and suspends at an `await`; the second runs from
that suspended state; the first then resumes from whatever state the
second left behind. -/
def singleFlightScenario (env1 env2 : BuildEnv) (s0 : OrchState) :
    TriggerOutcome × TriggerOutcome :=
  let s1 : OrchState := { s0 with cacheBuilding := true }
  let second := triggerCacheBuild env2 s1
  let first := triggerBody env1 second.state
  (first, second)

-- ═════════════════════════════════════════════════════════════════════════
-- Claim theorems
-- ═════════════════════════════════════════════════════════════════════════

-- ── C8: staleness predicate ──────────────────────────────────────────────

/-- C8 counterexample: the claim says `isCacheStale` is true exactly when
the timestamp is absent or the age strictly exceeds 2 hours; but at the
present timestamp `0` (epoch) with `now = 0` the code returns `true`
(JS `!timestamp` treats the number `0` as falsy) although the timestamp is
present and the age `0` does not exceed the maximum age. -/
theorem isCacheStale_claim_counterexample :
    isCacheStale (some 0) 0 = true
      ∧ ¬((some (0 : Int) = none) ∨ ((0 : Int) - 0 > CACHE_MAX_AGE_MS)) := by
  constructor
  · rfl
  · intro h
    rcases h with h | h
    · cases h
    · simp [CACHE_MAX_AGE_MS] at h

/-- C8 (amended): `isCacheStale` returns true exactly when the timestamp is
absent, or is the JS-falsy number `0`, or its age strictly exceeds the
2-hour maximum; at the boundary an age of 2h+1ms is stale and an age of
2h−1ms is not, and an absent timestamp is stale. -/
theorem isCacheStale_amended (t now : Int) (ht : t ≠ 0) :
    isCacheStale none now = true
      ∧ isCacheStale (some t) now = decide (now - t > CACHE_MAX_AGE_MS)
      ∧ isCacheStale (some t) (t + CACHE_MAX_AGE_MS + 1) = true
      ∧ isCacheStale (some t) (t + CACHE_MAX_AGE_MS - 1) = false
      ∧ (∀ ts : Option Int, isCacheStale ts now = true ↔
          (ts = none ∨ ts = some 0 ∨ ∃ v, ts = some v ∧ now - v > CACHE_MAX_AGE_MS)) := by
  have hb : (t == 0) = false := beq_eq_false_iff_ne.mpr ht
  refine ⟨rfl, ?_, ?_, ?_, ?_⟩
  · simp [isCacheStale, hb]
  · simp only [isCacheStale, hb, Bool.false_or]
    have : t + CACHE_MAX_AGE_MS + 1 - t = CACHE_MAX_AGE_MS + 1 := by ring
    rw [this]
    simp
  · simp only [isCacheStale, hb, Bool.false_or]
    have : t + CACHE_MAX_AGE_MS - 1 - t = CACHE_MAX_AGE_MS - 1 := by ring
    rw [this]
    simp [CACHE_MAX_AGE_MS]
  · intro ts
    rcases ts with _ | v
    · simp [isCacheStale]
    · by_cases hv : v = 0
      · subst hv
        simp [isCacheStale]
      · have : (v == 0) = false := beq_eq_false_iff_ne.mpr hv
        simp [isCacheStale, this, hv]

/-- C8 witness: the amended staleness characterization at a concrete
timestamp and clock. -/
theorem isCacheStale_amended_witness :
    isCacheStale none 7 = true
      ∧ isCacheStale (some 5) 7 = decide ((7 : Int) - 5 > CACHE_MAX_AGE_MS)
      ∧ isCacheStale (some 5) (5 + CACHE_MAX_AGE_MS + 1) = true
      ∧ isCacheStale (some 5) (5 + CACHE_MAX_AGE_MS - 1) = false
      ∧ (∀ ts : Option Int, isCacheStale ts 7 = true ↔
          (ts = none ∨ ts = some 0 ∨ ∃ v, ts = some v ∧ (7 : Int) - v > CACHE_MAX_AGE_MS)) :=
  isCacheStale_amended 5 7 (by decide)

-- ── C9: display-name fallback ────────────────────────────────────────────

/-- The user's first name as the code resolves it
(`user.first_name || user.firstName || ""`). -/
def resolvedFirstName (u : RawUser) : String :=
  orEmpty (jsOr u.first_name u.firstName)

/-- The user's last name as the code resolves it
(`user.last_name || user.lastName || ""`). -/
def resolvedLastName (u : RawUser) : String :=
  orEmpty (jsOr u.last_name u.lastName)

/-- C9: display-name fallback.  When `name` is non-empty after trimming the
result is the trimmed `name`; otherwise it is the trimmed first and last
names joined by one space and trimmed again; with all three empty or absent
the result is `""`.  (The result is a `String` by type.) -/
theorem displayUserName_spec (u : RawUser) :
    (trimStr (orEmpty u.name) ≠ "" →
      displayUserName u = trimStr (orEmpty u.name))
    ∧ (trimStr (orEmpty u.name) = "" →
      displayUserName u =
        trimStr (trimStr (resolvedFirstName u) ++ " " ++
          trimStr (resolvedLastName u)))
    ∧ (orEmpty u.name = "" → resolvedFirstName u = "" →
        resolvedLastName u = "" → displayUserName u = "") := by
  refine ⟨?_, ?_, ?_⟩
  · intro h
    simp [displayUserName, h]
  · intro h
    simp [displayUserName, h, resolvedFirstName, resolvedLastName]
  · intro hn hf hl
    simp [displayUserName, hn, resolvedFirstName, resolvedLastName] at *
    simp [displayUserName, hn, hf, hl, trimStr, isWsp]

/-- C9 witness: the display-name characterization evaluated on a concrete
user with an empty `name` and whitespace-padded first/last names. -/
theorem displayUserName_spec_witness :
    (trimStr (orEmpty ({ blankUser with
        first_name := some " Jo ", lastName := some "Doe" } : RawUser).name) ≠ "" →
      displayUserName { blankUser with
        first_name := some " Jo ", lastName := some "Doe" } =
        trimStr (orEmpty ({ blankUser with
          first_name := some " Jo ", lastName := some "Doe" } : RawUser).name))
    ∧ (trimStr (orEmpty ({ blankUser with
        first_name := some " Jo ", lastName := some "Doe" } : RawUser).name) = "" →
      displayUserName { blankUser with
        first_name := some " Jo ", lastName := some "Doe" } =
        trimStr (trimStr (resolvedFirstName { blankUser with
            first_name := some " Jo ", lastName := some "Doe" }) ++ " " ++
          trimStr (resolvedLastName { blankUser with
            first_name := some " Jo ", lastName := some "Doe" })))
    ∧ (orEmpty ({ blankUser with
        first_name := some " Jo ", lastName := some "Doe" } : RawUser).name = "" →
        resolvedFirstName { blankUser with
          first_name := some " Jo ", lastName := some "Doe" } = "" →
        resolvedLastName { blankUser with
          first_name := some " Jo ", lastName := some "Doe" } = "" →
        displayUserName { blankUser with
          first_name := some " Jo ", lastName := some "Doe" } = "") :=
  displayUserName_spec { blankUser with
    first_name := some " Jo ", lastName := some "Doe" }

-- ── Association-map invariants of the build ─────────────────────────────

theorem mem_setAdd {l : List String} {x q : String} (h : q ∈ setAdd l x) :
    q ∈ l ∨ q = x := by
  unfold setAdd at h
  by_cases hm : x ∈ l
  · rw [if_pos hm] at h
    exact Or.inl h
  · rw [if_neg hm] at h
    rcases List.mem_append.1 h with h | h
    · exact Or.inl h
    · simp at h
      exact Or.inr h

theorem mem_aupsert {m : List (String × α)} {k : String} {f : Option α → α}
    {e : String × α} (h : e ∈ aupsert m k f) :
    e ∈ m ∨ (e.1 = k ∧
      (e.2 = f none ∨ ∃ v, alookup m k = some v ∧ e.2 = f (some v))) := by
  induction m with
  | nil =>
    simp [aupsert] at h
    subst h
    exact Or.inr ⟨rfl, Or.inl rfl⟩
  | cons e0 rest ih =>
    obtain ⟨k0, v0⟩ := e0
    by_cases hk : k0 = k
    · subst hk
      simp only [aupsert, if_pos rfl] at h
      rcases List.mem_cons.1 h with he | hm'
      · subst he
        exact Or.inr ⟨rfl, Or.inr ⟨v0, by simp [alookup], rfl⟩⟩
      · exact Or.inl (List.mem_cons_of_mem _ hm')
    · simp only [aupsert, if_neg hk] at h
      rcases List.mem_cons.1 h with he | hm'
      · exact Or.inl (he ▸ List.mem_cons_self _ _)
      · rcases ih hm' with hin | ⟨h1, h2⟩
        · exact Or.inl (List.mem_cons_of_mem _ hin)
        · refine Or.inr ⟨h1, ?_⟩
          rwa [alookup, if_neg hk]

/-- Soundness of `projectIdsByCompany`: every recorded `(companyId,
projectId)` pair comes from a fetched project with a truthy id and a
truthy-id company in that project's per-project companies response. -/
def assocSound (projects : List RawProject) (fpc : String → List RawCompany)
    (m : List (String × List String)) : Prop :=
  ∀ cid s, (cid, s) ∈ m → ∀ q ∈ s,
    (∃ p ∈ projects, strTruthy p.id ∧ orEmpty p.id = q)
    ∧ (∃ comp ∈ fpc q, strTruthy comp.id ∧ orEmpty comp.id = cid)

theorem assocSound_inner (projects : List RawProject)
    (fpc : String → List RawCompany) (p : RawProject)
    (hp : p ∈ projects) (hpt : strTruthy p.id) (cs : List RawCompany) :
    ∀ (m : List (String × List String)),
      (∀ comp ∈ cs, comp ∈ fpc (orEmpty p.id)) →
      assocSound projects fpc m →
      assocSound projects fpc (cs.foldl
        (fun m comp =>
          if strTruthy comp.id then
            aupsert m (orEmpty comp.id)
              (fun o => setAdd (o.getD []) (orEmpty p.id))
          else m) m) := by
  induction cs with
  | nil =>
    intro m _ hm
    exact hm
  | cons c cs ih =>
    intro m hcs hm
    rw [List.foldl_cons]
    apply ih _ (fun comp hc => hcs comp (List.mem_cons_of_mem _ hc))
    by_cases hct : strTruthy c.id
    · rw [if_pos hct]
      intro cid s hmem q hq
      rcases mem_aupsert hmem with hold | ⟨hcid, hval⟩
      · exact hm cid s hold q hq
      · have hc0 : c ∈ fpc (orEmpty p.id) := hcs c (List.mem_cons_self _ _)
        rcases hval with hs | ⟨v, hv, hs⟩
        · simp only [Option.getD_none] at hs
          rcases mem_setAdd (hs ▸ hq) with hin | hqq
          · cases hin
          · subst hqq
            exact ⟨⟨p, hp, hpt, rfl⟩, ⟨c, hc0, hct, hcid.symm⟩⟩
        · simp only [Option.getD_some] at hs
          rcases mem_setAdd (hs ▸ hq) with hin | hqq
          · exact hm cid v (by
              have := mem_of_alookup_some hv
              rwa [← hcid] at this) q hin
          · subst hqq
            exact ⟨⟨p, hp, hpt, rfl⟩, ⟨c, hc0, hct, hcid.symm⟩⟩
    · rw [if_neg hct]
      exact hm

theorem assocSound_buildProjectMaps (projects : List RawProject)
    (fpc : String → List RawCompany) (fpu : String → List RawUser) :
    assocSound projects fpc (buildProjectMaps projects fpc fpu).1 := by
  have main : ∀ (ps : List RawProject)
      (acc : List (String × List String) × List (String × List RawUser)),
      (∀ p ∈ ps, p ∈ projects) →
      assocSound projects fpc acc.1 →
      assocSound projects fpc (ps.foldl (mapProjectStep fpc fpu) acc).1 := by
    intro ps
    induction ps with
    | nil =>
      intro acc _ h
      exact h
    | cons p ps ih =>
      intro acc hsub h
      rw [List.foldl_cons]
      apply ih _ (fun q hq => hsub q (List.mem_cons_of_mem _ hq))
      by_cases hpt : strTruthy p.id
      · simp only [mapProjectStep, hpt, if_true]
        exact assocSound_inner projects fpc p (hsub p (List.mem_cons_self _ _))
          hpt (fpc (orEmpty p.id)) acc.1 (fun c hc => hc) h
      · simp only [mapProjectStep, hpt]
        simpa using h
  exact main projects ([], []) (fun p hp => hp) (by
    intro cid s h
    cases h)

theorem nodup_akeys_inner (pid : String) (cs : List RawCompany) :
    ∀ (m : List (String × List String)), (akeys m).Nodup →
      (akeys (cs.foldl
        (fun m comp =>
          if strTruthy comp.id then
            aupsert m (orEmpty comp.id) (fun o => setAdd (o.getD []) pid)
          else m) m)).Nodup := by
  induction cs with
  | nil =>
    intro m h
    exact h
  | cons c cs ih =>
    intro m h
    rw [List.foldl_cons]
    apply ih
    by_cases hct : strTruthy c.id
    · rw [if_pos hct]
      exact nodup_akeys_aupsert _ _ _ h
    · rwa [if_neg hct]

theorem nodup_akeys_pibc (projects : List RawProject)
    (fpc : String → List RawCompany) (fpu : String → List RawUser) :
    (akeys (buildProjectMaps projects fpc fpu).1).Nodup := by
  have main : ∀ (ps : List RawProject)
      (acc : List (String × List String) × List (String × List RawUser)),
      (akeys acc.1).Nodup →
      (akeys (ps.foldl (mapProjectStep fpc fpu) acc).1).Nodup := by
    intro ps
    induction ps with
    | nil =>
      intro acc h
      exact h
    | cons p ps ih =>
      intro acc h
      rw [List.foldl_cons]
      apply ih
      by_cases hpt : strTruthy p.id
      · simp only [mapProjectStep, hpt, if_true]
        exact nodup_akeys_inner _ _ acc.1 h
      · simp only [mapProjectStep, hpt]
        simpa using h
  exact main projects ([], []) (by simp [akeys])

/-- Characterization of `projectUsersCache`: a project id that occurs in
the (truthy-id) project list maps to its per-project fetch result; any
other id is absent. -/
theorem alookup_puc (fpc : String → List RawCompany)
    (fpu : String → List RawUser) (pid : String) (projects : List RawProject) :
    ∀ (acc : List (String × List String) × List (String × List RawUser)),
      alookup (projects.foldl (mapProjectStep fpc fpu) acc).2 pid
        = if ∃ p ∈ projects, strTruthy p.id ∧ orEmpty p.id = pid
          then some (fpu pid) else alookup acc.2 pid := by
  induction projects with
  | nil =>
    intro acc
    simp
  | cons p ps ih =>
    intro acc
    rw [List.foldl_cons, ih]
    by_cases hpt : strTruthy p.id
    · by_cases hpid : orEmpty p.id = pid
      · have hex : ∃ q ∈ p :: ps, strTruthy q.id ∧ orEmpty q.id = pid :=
          ⟨p, List.mem_cons_self _ _, hpt, hpid⟩
        rw [if_pos hex]
        by_cases hex2 : ∃ q ∈ ps, strTruthy q.id ∧ orEmpty q.id = pid
        · rw [if_pos hex2]
        · rw [if_neg hex2]
          simp only [mapProjectStep, hpt, if_true]
          rw [hpid]
          exact alookup_aupsert_self _ _ _
      · have hiff : (∃ q ∈ p :: ps, strTruthy q.id ∧ orEmpty q.id = pid) ↔
            (∃ q ∈ ps, strTruthy q.id ∧ orEmpty q.id = pid) := by
          constructor
          · rintro ⟨q, hq, hqt, hqid⟩
            rcases List.mem_cons.1 hq with rfl | hq'
            · exact absurd hqid hpid
            · exact ⟨q, hq', hqt, hqid⟩
          · rintro ⟨q, hq, hqt, hqid⟩
            exact ⟨q, List.mem_cons_of_mem _ hq, hqt, hqid⟩
        by_cases hex2 : ∃ q ∈ ps, strTruthy q.id ∧ orEmpty q.id = pid
        · rw [if_pos (hiff.2 hex2), if_pos hex2]
        · rw [if_neg (fun hh => hex2 (hiff.1 hh)), if_neg hex2]
          simp only [mapProjectStep, hpt, if_true]
          exact alookup_aupsert_ne _ hpid (fun _ => fpu (orEmpty p.id))
    · have hiff : (∃ q ∈ p :: ps, strTruthy q.id ∧ orEmpty q.id = pid) ↔
          (∃ q ∈ ps, strTruthy q.id ∧ orEmpty q.id = pid) := by
        constructor
        · rintro ⟨q, hq, hqt, hqid⟩
          rcases List.mem_cons.1 hq with rfl | hq'
          · exact absurd hqt (by simp [hpt])
          · exact ⟨q, hq', hqt, hqid⟩
        · rintro ⟨q, hq, hqt, hqid⟩
          exact ⟨q, List.mem_cons_of_mem _ hq, hqt, hqid⟩
      by_cases hex2 : ∃ q ∈ ps, strTruthy q.id ∧ orEmpty q.id = pid
      · rw [if_pos (hiff.2 hex2), if_pos hex2]
      · rw [if_neg (fun hh => hex2 (hiff.1 hh)), if_neg hex2]
        simp only [mapProjectStep, hpt]
        simp

theorem alookup_buildProjectMaps_puc (projects : List RawProject)
    (fpc : String → List RawCompany) (fpu : String → List RawUser)
    (pid : String) :
    alookup (buildProjectMaps projects fpc fpu).2 pid
      = if ∃ p ∈ projects, strTruthy p.id ∧ orEmpty p.id = pid
        then some (fpu pid) else none := by
  have := alookup_puc fpc fpu pid projects ([], [])
  simpa [buildProjectMaps, alookup] using this

-- ── Cache membership helpers ─────────────────────────────────────────────

theorem mem_companiesCache {companies : List RawCompany} {users : List RawUser}
    {projects : List RawProject} {fpc : String → List RawCompany}
    {fpu : String → List RawUser} {C : CompanyEntry} :
    C ∈ (buildCompaniesCache companies users projects fpc fpu).1 ↔
      ∃ comp ∈ companies, strTruthy comp.id ∧
        C = mkCompanyEntry (buildUsersByCompany users)
              (buildProjectsById projects)
              (buildProjectMaps projects fpc fpu).1
              (buildProjectMaps projects fpc fpu).2 comp := by
  unfold buildCompaniesCache
  rw [mem_sortJs]
  unfold companiesUnsorted
  simp only [List.mem_map, List.mem_filter]
  constructor
  · rintro ⟨comp, ⟨hmem, ht⟩, rfl⟩
    exact ⟨comp, hmem, ht, rfl⟩
  · rintro ⟨comp, hmem, ht, rfl⟩
    exact ⟨comp, ⟨hmem, ht⟩, rfl⟩

theorem mem_projectsCache {companies : List RawCompany} {users : List RawUser}
    {projects : List RawProject} {fpc : String → List RawCompany}
    {fpu : String → List RawUser} {P : ProjectEntry} :
    P ∈ (buildCompaniesCache companies users projects fpc fpu).2 ↔
      ∃ p ∈ projects, strTruthy p.id ∧
        P = mkProjectEntry (buildCompaniesById companies)
              (buildProjectMaps projects fpc fpu).1
              (buildProjectMaps projects fpc fpu).2 p := by
  unfold buildCompaniesCache
  rw [mem_sortJs]
  unfold projectsUnsorted
  simp only [List.mem_map, List.mem_filter]
  constructor
  · rintro ⟨p, ⟨hmem, ht⟩, rfl⟩
    exact ⟨p, hmem, ht, rfl⟩
  · rintro ⟨p, hmem, ht, rfl⟩
    exact ⟨p, ⟨hmem, ht⟩, rfl⟩

theorem mem_companyProjectIds {pibc : List (String × List String)}
    {cid pid : String} :
    pid ∈ companyProjectIds pibc cid ↔
      ∃ s, alookup pibc cid = some s ∧ pid ∈ s := by
  unfold companyProjectIds
  cases h : alookup pibc cid
  · simp
  · simp [mem_sortJs]

/-- The uuids of a company entry's embedded project records are exactly the
sorted id set from `projectIdsByCompany`. -/
theorem mem_companyEntry_project_uuids {ubc : List (String × List RawUser)}
    {pbid : List (String × RawProject)} {pibc : List (String × List String)}
    {puc : List (String × List RawUser)} {comp : RawCompany} {pid : String} :
    pid ∈ (mkCompanyEntry ubc pbid pibc puc comp).projects.map (·.uuid) ↔
      pid ∈ companyProjectIds pibc (orEmpty comp.id) := by
  show pid ∈ (sortJs projRecLe ((companyProjectIds pibc (orEmpty comp.id)).map
      (projRecFor pbid puc (orEmpty comp.id)))).map (·.uuid) ↔ _
  rw [((sortJs_perm projRecLe _).map (·.uuid)).mem_iff]
  rw [List.map_map]
  have : ((·.uuid) ∘ projRecFor pbid puc (orEmpty comp.id)) = fun x => x := by
    funext x
    rfl
  rw [this, List.map_id']

-- ── C5: pagination fetcher contract ──────────────────────────────────────

/-- A page oracle whose first page is full (100 companies) and whose second
request throws (network failure / invalid JSON). -/
def throwingSecondPage : Nat → PageResult RawCompany := fun o =>
  if o = 0 then .ok (List.replicate 100 ⟨some "c", none⟩) else .thrown

/-- The same shape for the project-users endpoint. -/
def uThrowingSecondPage : Nat → UPageResult := fun o =>
  if o = 0 then .ok ⟨List.replicate 100 blankUser, none⟩ else .thrown

/-- C5 counterexample: the claim says a per-project fetcher, on a thrown
error, terminates the loop and returns whatever was collected so far.  With
a full first page and a throwing second request,
`CompaniesAPI.fetchProjectCompanies` returns `[]` — the outer
`try`/`catch` discards the already-collected page — while
`UsersAPI.fetchProjectUsers` (whose `try`/`catch` is inside the loop) does
keep it. -/
theorem pagination_claim_counterexample :
    CompaniesAPI.fetchProjectCompanies throwingSecondPage 5 = []
    ∧ List.replicate 100 (⟨some "c", none⟩ : RawCompany) ≠ []
    ∧ UsersAPI.fetchProjectUsers uThrowingSecondPage 5 =
        List.replicate 100 blankUser := by
  refine ⟨rfl, ?_, rfl⟩
  simp

/-- C5 (amended): every account-level fetcher requests pages at offsets
0, limit, 2·limit, …, concatenates them in request order, stops at the
first page with fewer than `limit` items (or zero items), and turns a
non-success HTTP response into an error carrying the status code and body;
a per-project fetcher, on a non-success response, stops and returns what
was collected so far; on a thrown error `fetchProjectUsers` returns what
was collected so far while `fetchProjectCompanies` returns `[]`. -/
theorem pagination_fetcher_contract :
    (∀ (pages : Nat → PageResult RawCompany) (items : Nat → List RawCompany)
        (last : List RawCompany) (k fuel : Nat),
      (∀ i, i < k → pages (i * 100) = .ok (items i) ∧ (items i).length = 100) →
      pages (k * 100) = .ok last → last.length < 100 → k < fuel →
      CompaniesAPI.fetchAll pages fuel = .ok (pagesConcat items k ++ last))
    ∧ (∀ (pages : Nat → PageResult RawUser) (items : Nat → List RawUser)
        (last : List RawUser) (k fuel : Nat),
      (∀ i, i < k → pages (i * 100) = .ok (items i) ∧ (items i).length = 100) →
      pages (k * 100) = .ok last → last.length < 100 → k < fuel →
      UsersAPI.fetchAll pages fuel = .ok (pagesConcat items k ++ last))
    ∧ (∀ (pages : Nat → PageResult RawProject) (items : Nat → List RawProject)
        (last : List RawProject) (k fuel : Nat),
      (∀ i, i < k → pages (i * 200) = .ok (items i) ∧ (items i).length = 200) →
      pages (k * 200) = .ok last → last.length < 200 → k < fuel →
      ProjectsAPI.fetchAll pages fuel = .ok (pagesConcat items k ++ last))
    ∧ (∀ (pages : Nat → PageResult RawCompany) (items : Nat → List RawCompany)
        (s : Nat) (b : String) (k fuel : Nat),
      (∀ i, i < k → pages (i * 100) = .ok (items i) ∧ (items i).length = 100) →
      pages (k * 100) = .httpErr s b → k < fuel →
      CompaniesAPI.fetchAll pages fuel = .error (.api s b))
    ∧ (∀ (pages : Nat → PageResult RawUser) (items : Nat → List RawUser)
        (s : Nat) (b : String) (k fuel : Nat),
      (∀ i, i < k → pages (i * 100) = .ok (items i) ∧ (items i).length = 100) →
      pages (k * 100) = .httpErr s b → k < fuel →
      UsersAPI.fetchAll pages fuel = .error (.api s b))
    ∧ (∀ (pages : Nat → PageResult RawProject) (items : Nat → List RawProject)
        (s : Nat) (b : String) (k fuel : Nat),
      (∀ i, i < k → pages (i * 200) = .ok (items i) ∧ (items i).length = 200) →
      pages (k * 200) = .httpErr s b → k < fuel →
      ProjectsAPI.fetchAll pages fuel = .error (.api s b))
    ∧ (∀ (pages : Nat → PageResult RawCompany) (items : Nat → List RawCompany)
        (s : Nat) (b : String) (k fuel : Nat),
      (∀ i, i < k → pages (i * 100) = .ok (items i) ∧ (items i).length = 100) →
      pages (k * 100) = .httpErr s b → k < fuel →
      CompaniesAPI.fetchProjectCompanies pages fuel = pagesConcat items k)
    ∧ (∀ (pages : Nat → PageResult RawCompany) (items : Nat → List RawCompany)
        (k fuel : Nat),
      (∀ i, i < k → pages (i * 100) = .ok (items i) ∧ (items i).length = 100) →
      pages (k * 100) = .thrown → k < fuel →
      CompaniesAPI.fetchProjectCompanies pages fuel = [])
    ∧ (∀ (pages : Nat → UPageResult) (items : Nat → List RawUser) (k fuel : Nat),
      (∀ i, i < k → pages (i * 100) = .ok ⟨items i, none⟩
        ∧ (items i).length = 100) →
      ((∃ s b, pages (k * 100) = .httpErr s b) ∨ pages (k * 100) = .thrown) →
      k < fuel →
      UsersAPI.fetchProjectUsers pages fuel = pagesConcat items k) := by
  refine ⟨?_, ?_, ?_, ?_, ?_, ?_, ?_, ?_, ?_⟩
  · intro pages items last k fuel hfull hlast hshort hfuel
    have := accountFetchGo_ok 100 pages k items last fuel 0 []
      (by simpa using hfull) (by simpa using hlast) hshort hfuel
    simpa [CompaniesAPI.fetchAll] using this
  · intro pages items last k fuel hfull hlast hshort hfuel
    have := accountFetchGo_ok 100 pages k items last fuel 0 []
      (by simpa using hfull) (by simpa using hlast) hshort hfuel
    simpa [UsersAPI.fetchAll] using this
  · intro pages items last k fuel hfull hlast hshort hfuel
    have := accountFetchGo_ok 200 pages k items last fuel 0 []
      (by simpa using hfull) (by simpa using hlast) hshort hfuel
    simpa [ProjectsAPI.fetchAll] using this
  · intro pages items s b k fuel hfull hlast hfuel
    have := accountFetchGo_httpErr 100 (by omega) pages k items s b fuel 0 []
      (by simpa using hfull) (by simpa using hlast) hfuel
    simpa [CompaniesAPI.fetchAll] using this
  · intro pages items s b k fuel hfull hlast hfuel
    have := accountFetchGo_httpErr 100 (by omega) pages k items s b fuel 0 []
      (by simpa using hfull) (by simpa using hlast) hfuel
    simpa [UsersAPI.fetchAll] using this
  · intro pages items s b k fuel hfull hlast hfuel
    have := accountFetchGo_httpErr 200 (by omega) pages k items s b fuel 0 []
      (by simpa using hfull) (by simpa using hlast) hfuel
    simpa [ProjectsAPI.fetchAll] using this
  · intro pages items s b k fuel hfull hlast hfuel
    have := fetchProjectCompaniesGo_httpErr pages k items s b fuel 0 []
      (by simpa using hfull) (by simpa using hlast) hfuel
    simp only [CompaniesAPI.fetchProjectCompanies, this]
    simp
  · intro pages items k fuel hfull hlast hfuel
    have := fetchProjectCompaniesGo_thrown pages k items fuel 0 []
      (by simpa using hfull) (by simpa using hlast) hfuel
    simp only [CompaniesAPI.fetchProjectCompanies, this]
  · intro pages items k fuel hfull hlast hfuel
    have := fetchProjectUsersGo_stops pages k items fuel 0 []
      (by simpa using hfull) (by simpa using hlast) hfuel
    simpa [UsersAPI.fetchProjectUsers] using this

/-- C5 witness: the contract evaluated at concrete single-page oracles. -/
theorem pagination_fetcher_contract_witness :
    CompaniesAPI.fetchAll (fun _ => PageResult.ok []) 1 = .ok []
    ∧ UsersAPI.fetchAll (fun _ => PageResult.ok []) 1 = .ok []
    ∧ ProjectsAPI.fetchAll (fun _ => PageResult.ok []) 1 = .ok []
    ∧ CompaniesAPI.fetchAll (fun _ => PageResult.httpErr 500 "boom") 1 =
        .error (.api 500 "boom")
    ∧ UsersAPI.fetchAll (fun _ => PageResult.httpErr 500 "boom") 1 =
        .error (.api 500 "boom")
    ∧ ProjectsAPI.fetchAll (fun _ => PageResult.httpErr 500 "boom") 1 =
        .error (.api 500 "boom")
    ∧ CompaniesAPI.fetchProjectCompanies (fun _ => PageResult.httpErr 404 "no") 1
        = []
    ∧ CompaniesAPI.fetchProjectCompanies (fun _ => PageResult.thrown) 1 = []
    ∧ UsersAPI.fetchProjectUsers (fun _ => UPageResult.thrown) 1 = [] := by
  obtain ⟨h1, h2, h3, h4, h5, h6, h7, h8, h9⟩ := pagination_fetcher_contract
  refine ⟨?_, ?_, ?_, ?_, ?_, ?_, ?_, ?_, ?_⟩
  · simpa [pagesConcat] using h1 (fun _ => PageResult.ok []) (fun _ => []) [] 0 1
      (fun i hi => absurd hi (Nat.not_lt_zero i)) rfl (by simp) (by omega)
  · simpa [pagesConcat] using h2 (fun _ => PageResult.ok []) (fun _ => []) [] 0 1
      (fun i hi => absurd hi (Nat.not_lt_zero i)) rfl (by simp) (by omega)
  · simpa [pagesConcat] using h3 (fun _ => PageResult.ok []) (fun _ => []) [] 0 1
      (fun i hi => absurd hi (Nat.not_lt_zero i)) rfl (by simp) (by omega)
  · exact h4 (fun _ => PageResult.httpErr 500 "boom") (fun _ => []) 500 "boom" 0 1
      (fun i hi => absurd hi (Nat.not_lt_zero i)) rfl (by omega)
  · exact h5 (fun _ => PageResult.httpErr 500 "boom") (fun _ => []) 500 "boom" 0 1
      (fun i hi => absurd hi (Nat.not_lt_zero i)) rfl (by omega)
  · exact h6 (fun _ => PageResult.httpErr 500 "boom") (fun _ => []) 500 "boom" 0 1
      (fun i hi => absurd hi (Nat.not_lt_zero i)) rfl (by omega)
  · simpa [pagesConcat] using h7 (fun _ => PageResult.httpErr 404 "no")
      (fun _ => []) 404 "no" 0 1
      (fun i hi => absurd hi (Nat.not_lt_zero i)) rfl (by omega)
  · exact h8 (fun _ => PageResult.thrown) (fun _ => []) 0 1
      (fun i hi => absurd hi (Nat.not_lt_zero i)) rfl (by omega)
  · simpa [pagesConcat] using h9 (fun _ => UPageResult.thrown) (fun _ => []) 0 1
      (fun i hi => absurd hi (Nat.not_lt_zero i)) (Or.inr rfl) (by omega)

-- ── Company-entry structure helpers ──────────────────────────────────────

theorem mem_companyEntry_projects {ubc : List (String × List RawUser)}
    {pbid : List (String × RawProject)} {pibc : List (String × List String)}
    {puc : List (String × List RawUser)} {comp : RawCompany} {PR : ProjectRec} :
    PR ∈ (mkCompanyEntry ubc pbid pibc puc comp).projects ↔
      ∃ pid ∈ companyProjectIds pibc (orEmpty comp.id),
        PR = projRecFor pbid puc (orEmpty comp.id) pid := by
  show PR ∈ sortJs projRecLe ((companyProjectIds pibc (orEmpty comp.id)).map
      (projRecFor pbid puc (orEmpty comp.id))) ↔ _
  rw [mem_sortJs]
  constructor
  · intro h
    rcases List.mem_map.1 h with ⟨pid, hpid, rfl⟩
    exact ⟨pid, hpid, rfl⟩
  · rintro ⟨pid, hpid, rfl⟩
    exact List.mem_map.2 ⟨pid, hpid, rfl⟩

/-- A project id recorded under some company in `projectIdsByCompany` has a
matching project in the fetched list, so its cached roster is exactly the
per-project members fetch result. -/
theorem rosterOf_of_mem_companyProjectIds {projects : List RawProject}
    {fpc : String → List RawCompany} {fpu : String → List RawUser}
    {cid pid : String}
    (hpid : pid ∈ companyProjectIds (buildProjectMaps projects fpc fpu).1 cid) :
    rosterOf (buildProjectMaps projects fpc fpu).2 pid = fpu pid := by
  rcases mem_companyProjectIds.1 hpid with ⟨s, hl, hin⟩
  have hsound := assocSound_buildProjectMaps projects fpc fpu cid s
    (mem_of_alookup_some hl) pid hin
  rcases hsound.1 with ⟨p, hp, hpt, hpeq⟩
  unfold rosterOf
  rw [alookup_buildProjectMaps_puc, if_pos ⟨p, hp, hpt, hpeq⟩, Option.getD_some]

/-- Characterization of `usersByCompany`: the bucket for `cid` is the
account users whose `company_id || companyId` resolves (truthily) to
`cid`, in fetch order. -/
theorem alookup_buildUsersByCompany (users : List RawUser) (cid : String) :
    (alookup (buildUsersByCompany users) cid).getD []
      = users.filter (fun u => strTruthy (jsOr u.company_id u.companyId)
          && (orEmpty (jsOr u.company_id u.companyId) == cid)) := by
  have main : ∀ m, (alookup (users.foldl usersByCompanyStep m) cid).getD []
      = (alookup m cid).getD []
        ++ users.filter (fun u => strTruthy (jsOr u.company_id u.companyId)
            && (orEmpty (jsOr u.company_id u.companyId) == cid)) := by
    induction users with
    | nil =>
      intro m
      simp
    | cons u us ih =>
      intro m
      rw [List.foldl_cons, ih]
      by_cases hres : strTruthy (jsOr u.company_id u.companyId)
      · by_cases hid : orEmpty (jsOr u.company_id u.companyId) = cid
        · have hstep : usersByCompanyStep m u =
              aupsert m cid (fun o => (o.getD []) ++ [u]) := by
            unfold usersByCompanyStep
            rw [if_pos hres, hid]
          rw [hstep, List.filter_cons]
          have hpred : (strTruthy (jsOr u.company_id u.companyId)
              && (orEmpty (jsOr u.company_id u.companyId) == cid)) = true := by
            simp [hres, hid]
          rw [if_pos hpred, alookup_aupsert_self, Option.getD_some]
          simp
        · have hstep : usersByCompanyStep m u =
              aupsert m (orEmpty (jsOr u.company_id u.companyId))
                (fun o => (o.getD []) ++ [u]) := by
            unfold usersByCompanyStep
            rw [if_pos hres]
          rw [hstep, List.filter_cons]
          have hpred : (strTruthy (jsOr u.company_id u.companyId)
              && (orEmpty (jsOr u.company_id u.companyId) == cid)) = false := by
            simp [hres, hid]
          rw [if_neg (by simp [hpred]), alookup_aupsert_ne _ hid]
      · have hstep : usersByCompanyStep m u = m := by
          unfold usersByCompanyStep
          rw [if_neg hres]
        rw [hstep, List.filter_cons]
        have hpred : (strTruthy (jsOr u.company_id u.companyId)
            && (orEmpty (jsOr u.company_id u.companyId) == cid)) = false := by
          simp [hres]
        rw [if_neg (by simp [hpred])]
  have := main []
  simpa [buildUsersByCompany, alookup] using this

-- ── C1: reverse-index agreement ──────────────────────────────────────────

/-- The uuids of a project entry's embedded company references are exactly
the association-map keys whose project-id set contains this project. -/
theorem mem_projectEntry_company_uuids {cbid : List (String × RawCompany)}
    {pibc : List (String × List String)} {puc : List (String × List RawUser)}
    {project : RawProject} {cid : String} :
    cid ∈ (mkProjectEntry cbid pibc puc project).companies.map (·.uuid) ↔
      ∃ s, (cid, s) ∈ pibc ∧ orEmpty project.id ∈ s := by
  show cid ∈ (sortJs companyRefLe
      ((companyIdsForProject pibc (orEmpty project.id)).map
        (companyRefFor cbid))).map (·.uuid) ↔ _
  rw [((sortJs_perm companyRefLe _).map (·.uuid)).mem_iff, List.map_map]
  have huuid : ((·.uuid) ∘ companyRefFor cbid) = fun x => x := by
    funext x
    show (companyRefFor cbid x).uuid = x
    unfold companyRefFor
    cases alookup cbid x <;> rfl
  rw [huuid, List.map_id']
  unfold companyIdsForProject
  constructor
  · intro h
    rcases List.mem_map.1 h with ⟨ep, hep, rfl⟩
    rcases List.mem_filter.1 hep with ⟨hmem, hdec⟩
    exact ⟨ep.2, hmem, by simpa using hdec⟩
  · rintro ⟨s, hmem, hin⟩
    exact List.mem_map.2 ⟨(cid, s),
      List.mem_filter.2 ⟨hmem, by simpa using hin⟩, rfl⟩

/-- C1: reverse-index agreement — for every company entry C and project
entry P of one built cache pair, P's uuid is among C's embedded project
uuids exactly when C's uuid is among P's embedded company uuids. -/
theorem reverse_index_agreement (companies : List RawCompany)
    (users : List RawUser) (projects : List RawProject)
    (fpc : String → List RawCompany) (fpu : String → List RawUser) :
    ∀ C ∈ (buildCompaniesCache companies users projects fpc fpu).1,
    ∀ P ∈ (buildCompaniesCache companies users projects fpc fpu).2,
      (P.uuid ∈ C.projects.map (·.uuid) ↔
        C.uuid ∈ P.companies.map (·.uuid)) := by
  intro C hC P hP
  rcases mem_companiesCache.1 hC with ⟨comp, _, _, rfl⟩
  rcases mem_projectsCache.1 hP with ⟨p, _, _, rfl⟩
  rw [mem_companyEntry_project_uuids, mem_companyProjectIds,
    mem_projectEntry_company_uuids]
  have hnd := nodup_akeys_pibc projects fpc fpu
  constructor
  · rintro ⟨s, hl, hin⟩
    exact ⟨s, mem_of_alookup_some hl, hin⟩
  · rintro ⟨s, hmem, hin⟩
    exact ⟨s, alookup_of_mem_nodup hnd hmem, hin⟩

/-- Concrete one-company/one-project scenario for witnesses. -/
def w1companies : List RawCompany := [⟨some "c1", some "Acme"⟩]

def w1projects : List RawProject := [⟨some "p1", some "Tower", none⟩]

def w1fpc : String → List RawCompany := fun _ => [⟨some "c1", none⟩]

def w1fpu : String → List RawUser := fun _ => []

def w1C : CompanyEntry :=
  mkCompanyEntry (buildUsersByCompany []) (buildProjectsById w1projects)
    (buildProjectMaps w1projects w1fpc w1fpu).1
    (buildProjectMaps w1projects w1fpc w1fpu).2 ⟨some "c1", some "Acme"⟩

def w1P : ProjectEntry :=
  mkProjectEntry (buildCompaniesById w1companies)
    (buildProjectMaps w1projects w1fpc w1fpu).1
    (buildProjectMaps w1projects w1fpc w1fpu).2 ⟨some "p1", some "Tower", none⟩

/-- C1 witness: the agreement at the concrete one-company/one-project
build. -/
theorem reverse_index_agreement_witness :
    w1P.uuid ∈ w1C.projects.map (·.uuid) ↔
      w1C.uuid ∈ w1P.companies.map (·.uuid) :=
  reverse_index_agreement w1companies [] w1projects w1fpc w1fpu
    w1C (by decide) w1P (by decide)

-- ── C3: per-project fetch failure tolerance ──────────────────────────────

/-- C3: when a per-project fetch fails outright (its first page request
gets a non-success response or throws) the fetcher returns `[]` — an empty
result, never a thrown error — and, for a build whose account-level
fetches succeeded, a project P whose per-project companies result is empty
appears in `projectsCache` with `companies = []` and no company's
`projects` list contains P; a project whose per-project members result is
empty appears with `members = []`. -/
theorem per_project_failure_tolerance :
    (∀ (pages : Nat → PageResult RawCompany) (fuel : Nat), 0 < fuel →
      ((∃ s b, pages 0 = .httpErr s b) ∨ pages 0 = .thrown) →
      CompaniesAPI.fetchProjectCompanies pages fuel = [])
    ∧ (∀ (pages : Nat → UPageResult) (fuel : Nat), 0 < fuel →
      ((∃ s b, pages 0 = .httpErr s b) ∨ pages 0 = .thrown) →
      UsersAPI.fetchProjectUsers pages fuel = [])
    ∧ (∀ (companies : List RawCompany) (users : List RawUser)
        (projects : List RawProject) (fpc : String → List RawCompany)
        (fpu : String → List RawUser) (P : RawProject),
      P ∈ projects → strTruthy P.id →
      ((fpc (orEmpty P.id) = [] →
        (∃ e ∈ (buildCompaniesCache companies users projects fpc fpu).2,
          e.uuid = orEmpty P.id)
        ∧ (∀ e ∈ (buildCompaniesCache companies users projects fpc fpu).2,
            e.uuid = orEmpty P.id → e.companies = [])
        ∧ (∀ C ∈ (buildCompaniesCache companies users projects fpc fpu).1,
            orEmpty P.id ∉ C.projects.map (·.uuid)))
      ∧ (fpu (orEmpty P.id) = [] →
        (∃ e ∈ (buildCompaniesCache companies users projects fpc fpu).2,
          e.uuid = orEmpty P.id)
        ∧ (∀ e ∈ (buildCompaniesCache companies users projects fpc fpu).2,
            e.uuid = orEmpty P.id → e.members = [])))) := by
  refine ⟨?_, ?_, ?_⟩
  · intro pages fuel hfuel hfail
    rcases hfail with ⟨s, b, hsb⟩ | hth
    · have := fetchProjectCompaniesGo_httpErr pages 0 (fun _ => []) s b fuel 0 []
        (fun i hi => absurd hi (Nat.not_lt_zero i)) (by simpa using hsb) hfuel
      simp only [CompaniesAPI.fetchProjectCompanies, this]
      simp [pagesConcat]
    · have := fetchProjectCompaniesGo_thrown pages 0 (fun _ => []) fuel 0 []
        (fun i hi => absurd hi (Nat.not_lt_zero i)) (by simpa using hth) hfuel
      simp only [CompaniesAPI.fetchProjectCompanies, this]
  · intro pages fuel hfuel hfail
    have := fetchProjectUsersGo_stops pages 0 (fun _ => []) fuel 0 []
      (fun i hi => absurd hi (Nat.not_lt_zero i)) (by simpa using hfail) hfuel
    simpa [UsersAPI.fetchProjectUsers, pagesConcat] using this
  · intro companies users projects fpc fpu P hP hPt
    have hexist : ∃ e ∈ (buildCompaniesCache companies users projects fpc fpu).2,
        e.uuid = orEmpty P.id := by
      refine ⟨mkProjectEntry (buildCompaniesById companies)
          (buildProjectMaps projects fpc fpu).1
          (buildProjectMaps projects fpc fpu).2 P, ?_, rfl⟩
      exact mem_projectsCache.2 ⟨P, hP, hPt, rfl⟩
    constructor
    · intro hfpc
      refine ⟨hexist, ?_, ?_⟩
      · intro e he huuid
        rcases mem_projectsCache.1 he with ⟨p', hp', hpt', rfl⟩
        have hpid : orEmpty p'.id = orEmpty P.id := huuid
        show sortJs companyRefLe
            ((companyIdsForProject (buildProjectMaps projects fpc fpu).1
              (orEmpty p'.id)).map
              (companyRefFor (buildCompaniesById companies))) = []
        have hids : companyIdsForProject (buildProjectMaps projects fpc fpu).1
            (orEmpty p'.id) = [] := by
          unfold companyIdsForProject
          rw [List.filter_eq_nil_iff.2, List.map_nil]
          intro ep hep
          simp only [decide_eq_true_eq]
          intro hmem
          have hsound := assocSound_buildProjectMaps projects fpc fpu ep.1 ep.2
            hep (orEmpty p'.id) hmem
          rcases hsound.2 with ⟨comp, hcomp, _, _⟩
          rw [hpid, hfpc] at hcomp
          cases hcomp
        rw [hids]
        rfl
      · intro C hC hmem
        rcases mem_companiesCache.1 hC with ⟨comp, _, _, rfl⟩
        rw [mem_companyEntry_project_uuids] at hmem
        rcases mem_companyProjectIds.1 hmem with ⟨s, hlook, hin⟩
        have hsound := assocSound_buildProjectMaps projects fpc fpu
          (orEmpty comp.id) s (mem_of_alookup_some hlook) (orEmpty P.id) hin
        rcases hsound.2 with ⟨c, hc, _, _⟩
        rw [hfpc] at hc
        cases hc
    · intro hfpu
      refine ⟨hexist, ?_⟩
      intro e he huuid
      rcases mem_projectsCache.1 he with ⟨p', hp', hpt', rfl⟩
      have hpid : orEmpty p'.id = orEmpty P.id := huuid
      show sortJs projMemberLe
          (((rosterOf (buildProjectMaps projects fpc fpu).2
              (orEmpty p'.id)).filter
            (fun pu => strTruthy pu.id)).map mkProjMemberRec) = []
      have hroster : rosterOf (buildProjectMaps projects fpc fpu).2
          (orEmpty p'.id) = [] := by
        unfold rosterOf
        rw [alookup_buildProjectMaps_puc, if_pos ⟨p', hp', hpt', rfl⟩,
          Option.getD_some, hpid, hfpu]
      rw [hroster]
      rfl

/-- C3 witness: a one-project build whose per-project fetches return empty
results; the project appears in `projectsCache` with `companies = []` and
`members = []`, and the sole company's `projects` list does not contain
it. -/
theorem per_project_failure_tolerance_witness :
    CompaniesAPI.fetchProjectCompanies (fun _ => PageResult.httpErr 403 "no") 3
        = []
    ∧ UsersAPI.fetchProjectUsers (fun _ => UPageResult.thrown) 3 = []
    ∧ ((fun _ => ([] : List RawCompany)) (orEmpty (some "p1")) = [] →
        (∃ e ∈ (buildCompaniesCache [⟨some "c1", some "A"⟩] []
            [⟨some "p1", some "P", none⟩] (fun _ => [])
            (fun _ => [])).2, e.uuid = orEmpty (some "p1"))
        ∧ (∀ e ∈ (buildCompaniesCache [⟨some "c1", some "A"⟩] []
            [⟨some "p1", some "P", none⟩] (fun _ => [])
            (fun _ => [])).2,
            e.uuid = orEmpty (some "p1") → e.companies = [])
        ∧ (∀ C ∈ (buildCompaniesCache [⟨some "c1", some "A"⟩] []
            [⟨some "p1", some "P", none⟩] (fun _ => [])
            (fun _ => [])).1,
            orEmpty (some "p1") ∉ C.projects.map (·.uuid))) := by
  obtain ⟨h1, h2, h3⟩ := per_project_failure_tolerance
  refine ⟨?_, ?_, ?_⟩
  · exact h1 (fun _ => PageResult.httpErr 403 "no") 3 (by omega)
      (Or.inl ⟨403, "no", rfl⟩)
  · exact h2 (fun _ => UPageResult.thrown) 3 (by omega) (Or.inr rfl)
  · exact (h3 [⟨some "c1", some "A"⟩] [] [⟨some "p1", some "P", none⟩]
      (fun _ => []) (fun _ => []) ⟨some "p1", some "P", none⟩
      (List.mem_cons_self _ _) (by decide)).1

-- ── Tie-order helpers (stability consequences) ───────────────────────────

/-- If every key class of `l` is pairwise `T`, then `l` is pairwise `T`
restricted to equal-key pairs. -/
theorem pairwise_of_filter_classes {key : α → String} {T : α → α → Prop}
    {l : List α}
    (h : ∀ k, (l.filter (fun a => key a == k)).Pairwise T) :
    l.Pairwise (fun a b => key a = key b → T a b) := by
  induction l with
  | nil => exact List.Pairwise.nil
  | cons x xs ih =>
    refine List.pairwise_cons.2 ⟨?_, ?_⟩
    · intro b hb hkey
      have hx := h (key x)
      rw [List.filter_cons] at hx
      rw [if_pos (by simp)] at hx
      have hbmem : b ∈ xs.filter (fun a => key a == key x) :=
        List.mem_filter.2 ⟨hb, by simp [hkey]⟩
      exact (List.pairwise_cons.1 hx).1 b hbmem
    · apply ih
      intro k
      have hk := h k
      rw [List.filter_cons] at hk
      by_cases hxk : (key x == k) = true
      · rw [if_pos hxk] at hk
        exact (List.pairwise_cons.1 hk).2
      · rwa [if_neg (by simp [hxk])] at hk

/-- The stable sort keeps every property `T` that held pairwise in the
input, restricted to pairs whose sort keys are equal (ties). -/
theorem sortJs_stable_pairwise (key : α → String) (T : α → α → Prop)
    (l : List α) (hl : l.Pairwise T) :
    (sortJs (keyLe key) l).Pairwise (fun a b => key a = key b → T a b) := by
  apply pairwise_of_filter_classes
  intro k
  rw [sortJs_stable]
  exact hl.filter _

theorem companyProjectIds_pairwise (pibc : List (String × List String))
    (cid : String) :
    (companyProjectIds pibc cid).Pairwise (fun a b => strLe a b = true) := by
  unfold companyProjectIds
  cases alookup pibc cid
  · exact List.Pairwise.nil
  · exact pairwise_sortJs (keyLe_total strIdKey) (keyLe_trans strIdKey) _

-- ── C7: sorting invariant ────────────────────────────────────────────────

/-- C7 counterexample: the claim says ties between case-insensitively
equal names keep original fetch order in every nested list; but a
company's embedded projects list is built from the id set sorted by id
first (`[...set].sort()`), so two projects fetched as `z1 ("Same")` then
`a1 ("same")` — names equal up to case — appear under the company in id
order `[a1, z1]`, not fetch order `[z1, a1]`. -/
theorem sorting_claim_counterexample :
    ((buildCompaniesCache [⟨some "c1", some "Acme"⟩] []
        [⟨some "z1", some "Same", none⟩, ⟨some "a1", some "same", none⟩]
        (fun _ => [⟨some "c1", none⟩]) (fun _ => [])).1.map
      (fun C => C.projects.map (·.uuid))) = [["a1", "z1"]]
    ∧ ([⟨some "z1", some "Same", none⟩, ⟨some "a1", some "same", none⟩] :
        List RawProject).map (fun p => orEmpty p.id) = ["z1", "a1"]
    ∧ lowerStr "Same" = lowerStr "same" :=
  ⟨rfl, rfl, rfl⟩

/-- C7 (amended): every list of both caches is sorted ascending by
case-insensitive name, with stable sorts: ties keep their pre-sort
order — original fetch order for the two top-level arrays and for every
`users`/`members` list, but ascending project-uuid order for a company's
embedded `projects` list (whose id set is sorted by id before mapping);
the concrete `["bravo", "Alpha", "charlie"]` example assembles to
`["Alpha", "bravo", "charlie"]`. -/
theorem sorting_invariant (companies : List RawCompany) (users : List RawUser)
    (projects : List RawProject) (fpc : String → List RawCompany)
    (fpu : String → List RawUser) :
    ((buildCompaniesCache companies users projects fpc fpu).1.Pairwise
      (fun a b => companyLe a b = true))
    ∧ (∀ C ∈ (buildCompaniesCache companies users projects fpc fpu).1,
        C.users.Pairwise (fun a b => memberLe a b = true)
        ∧ C.projects.Pairwise (fun a b => projRecLe a b = true)
        ∧ ∀ PR ∈ C.projects,
            PR.members.Pairwise (fun a b => memberLe a b = true))
    ∧ ((buildCompaniesCache companies users projects fpc fpu).2.Pairwise
      (fun a b => projEntryLe a b = true))
    ∧ (∀ P ∈ (buildCompaniesCache companies users projects fpc fpu).2,
        P.members.Pairwise (fun a b => projMemberLe a b = true)
        ∧ P.companies.Pairwise (fun a b => companyRefLe a b = true))
    ∧ (∀ k, (buildCompaniesCache companies users projects fpc fpu).1.filter
          (fun c => companyKey c == k)
        = (companiesUnsorted companies users projects fpc fpu).filter
          (fun c => companyKey c == k))
    ∧ (∀ k, (buildCompaniesCache companies users projects fpc fpu).2.filter
          (fun e => projEntryKey e == k)
        = (projectsUnsorted companies projects fpc fpu).filter
          (fun e => projEntryKey e == k))
    ∧ (∀ C ∈ (buildCompaniesCache companies users projects fpc fpu).1, ∀ k,
        C.users.filter (fun m => memberKey m == k)
          = (((users.filter (fun u =>
                strTruthy (jsOr u.company_id u.companyId)
                && (orEmpty (jsOr u.company_id u.companyId) == C.uuid))).filter
              (fun u => strTruthy u.id)).map mkMemberRec).filter
            (fun m => memberKey m == k))
    ∧ (∀ C ∈ (buildCompaniesCache companies users projects fpc fpu).1,
        ∀ PR ∈ C.projects, ∀ k,
        PR.members.filter (fun m => memberKey m == k)
          = (((fpu PR.uuid).filter (fun pu =>
                pu.companyId == some C.uuid && strTruthy pu.id)).map
              mkMemberRec).filter (fun m => memberKey m == k))
    ∧ (∀ P ∈ (buildCompaniesCache companies users projects fpc fpu).2, ∀ k,
        P.members.filter (fun m => projMemberKey m == k)
          = (((fpu P.uuid).filter (fun pu => strTruthy pu.id)).map
              mkProjMemberRec).filter (fun m => projMemberKey m == k))
    ∧ (∀ C ∈ (buildCompaniesCache companies users projects fpc fpu).1,
        C.projects.Pairwise (fun a b =>
          projRecKey a = projRecKey b → strLe a.uuid b.uuid = true))
    ∧ ((buildCompaniesCache [⟨some "b1", some "bravo"⟩,
          ⟨some "a1", some "Alpha"⟩, ⟨some "x1", some "charlie"⟩] [] []
          (fun _ => []) (fun _ => [])).1.map (·.name)
        = ["Alpha", "bravo", "charlie"]) := by
  refine ⟨?_, ?_, ?_, ?_, ?_, ?_, ?_, ?_, ?_, ?_, rfl⟩
  · exact pairwise_sortJs (keyLe_total companyKey) (keyLe_trans companyKey) _
  · intro C hC
    rcases mem_companiesCache.1 hC with ⟨comp, _, _, rfl⟩
    refine ⟨?_, ?_, ?_⟩
    · exact pairwise_sortJs (keyLe_total memberKey) (keyLe_trans memberKey) _
    · exact pairwise_sortJs (keyLe_total projRecKey) (keyLe_trans projRecKey) _
    · intro PR hPR
      rcases mem_companyEntry_projects.1 hPR with ⟨pid, _, rfl⟩
      exact pairwise_sortJs (keyLe_total memberKey) (keyLe_trans memberKey) _
  · exact pairwise_sortJs (keyLe_total projEntryKey) (keyLe_trans projEntryKey) _
  · intro P hP
    rcases mem_projectsCache.1 hP with ⟨p, _, _, rfl⟩
    constructor
    · exact pairwise_sortJs (keyLe_total projMemberKey)
        (keyLe_trans projMemberKey) _
    · exact pairwise_sortJs (keyLe_total companyRefKey)
        (keyLe_trans companyRefKey) _
  · intro k
    exact sortJs_stable companyKey k _
  · intro k
    exact sortJs_stable projEntryKey k _
  · intro C hC k
    rcases mem_companiesCache.1 hC with ⟨comp, _, _, rfl⟩
    show (sortJs (keyLe memberKey) ((((alookup (buildUsersByCompany users)
        (orEmpty comp.id)).getD []).filter (fun u => strTruthy u.id)).map
        mkMemberRec)).filter (fun m => memberKey m == k)
      = (((users.filter (fun u =>
            strTruthy (jsOr u.company_id u.companyId)
            && (orEmpty (jsOr u.company_id u.companyId)
              == orEmpty comp.id))).filter
          (fun u => strTruthy u.id)).map mkMemberRec).filter
        (fun m => memberKey m == k)
    rw [sortJs_stable memberKey k, alookup_buildUsersByCompany]
  · intro C hC PR hPR k
    rcases mem_companiesCache.1 hC with ⟨comp, _, _, rfl⟩
    rcases mem_companyEntry_projects.1 hPR with ⟨pid, hpid, rfl⟩
    have hroster := rosterOf_of_mem_companyProjectIds hpid
    show (sortJs (keyLe memberKey)
        (((rosterOf (buildProjectMaps projects fpc fpu).2 pid).filter
          (fun pu => pu.companyId == some (orEmpty comp.id)
            && strTruthy pu.id)).map mkMemberRec)).filter
        (fun m => memberKey m == k)
      = (((fpu pid).filter (fun pu => pu.companyId == some (orEmpty comp.id)
            && strTruthy pu.id)).map mkMemberRec).filter
        (fun m => memberKey m == k)
    rw [sortJs_stable memberKey k, hroster]
  · intro P hP k
    rcases mem_projectsCache.1 hP with ⟨p, hp, hpt, rfl⟩
    have hroster : rosterOf (buildProjectMaps projects fpc fpu).2
        (orEmpty p.id) = fpu (orEmpty p.id) := by
      unfold rosterOf
      rw [alookup_buildProjectMaps_puc, if_pos ⟨p, hp, hpt, rfl⟩,
        Option.getD_some]
    show (sortJs (keyLe projMemberKey)
        (((rosterOf (buildProjectMaps projects fpc fpu).2
          (orEmpty p.id)).filter (fun pu => strTruthy pu.id)).map
          mkProjMemberRec)).filter (fun m => projMemberKey m == k)
      = (((fpu (orEmpty p.id)).filter (fun pu => strTruthy pu.id)).map
          mkProjMemberRec).filter (fun m => projMemberKey m == k)
    rw [sortJs_stable projMemberKey k, hroster]
  · intro C hC
    rcases mem_companiesCache.1 hC with ⟨comp, _, _, rfl⟩
    show (sortJs projRecLe ((companyProjectIds
        (buildProjectMaps projects fpc fpu).1 (orEmpty comp.id)).map
        (projRecFor (buildProjectsById projects)
          (buildProjectMaps projects fpc fpu).2
          (orEmpty comp.id)))).Pairwise
      (fun a b => projRecKey a = projRecKey b → strLe a.uuid b.uuid = true)
    apply sortJs_stable_pairwise projRecKey
      (fun a b => strLe a.uuid b.uuid = true)
    rw [List.pairwise_map]
    exact companyProjectIds_pairwise _ _

/-- Concrete company list for the sorting witness. -/
def sortDemoCompanies : List RawCompany :=
  [⟨some "b1", some "bravo"⟩, ⟨some "a1", some "Alpha"⟩,
   ⟨some "x1", some "charlie"⟩]

def w7C : CompanyEntry :=
  mkCompanyEntry (buildUsersByCompany []) (buildProjectsById [])
    (buildProjectMaps [] (fun _ => []) (fun _ => [])).1
    (buildProjectMaps [] (fun _ => []) (fun _ => [])).2
    ⟨some "b1", some "bravo"⟩

/-- C7 witness: the sorting facts evaluated at the concrete three-company
build. -/
theorem sorting_invariant_witness :
    ((buildCompaniesCache sortDemoCompanies [] [] (fun _ => [])
        (fun _ => [])).1.Pairwise (fun a b => companyLe a b = true))
    ∧ (w7C.users.Pairwise (fun a b => memberLe a b = true)
        ∧ w7C.projects.Pairwise (fun a b => projRecLe a b = true)
        ∧ ∀ PR ∈ w7C.projects,
            PR.members.Pairwise (fun a b => memberLe a b = true))
    ∧ ((buildCompaniesCache sortDemoCompanies [] [] (fun _ => [])
        (fun _ => [])).1.filter (fun c => companyKey c == "alpha")
      = (companiesUnsorted sortDemoCompanies [] [] (fun _ => [])
        (fun _ => [])).filter (fun c => companyKey c == "alpha")) := by
  obtain ⟨h1, h2, _, _, h5, _, _, _, _, _, _⟩ :=
    sorting_invariant sortDemoCompanies [] [] (fun _ => []) (fun _ => [])
  exact ⟨h1, h2 w7C (by decide), h5 "alpha"⟩

-- ── C6: member intersection correctness ──────────────────────────────────

/-- A project-roster record with a matching camelCase `companyId` but no
truthy `id` — dropped by the builder's `pu.id` filter. -/
def ghostUser : RawUser := { blankUser with name := some "Ghost", companyId := some "c1" }

/-- C6 counterexample: the claim says every user in the project's roster
with `companyId = C.uuid` appears in the embedded members exactly once, but
a roster record with a matching `companyId` and a missing (falsy) `id` is
dropped: the embedded members list is empty although the roster contains
such a user. -/
theorem member_intersection_counterexample :
    ((buildCompaniesCache [⟨some "c1", some "A"⟩] []
        [⟨some "p1", some "P", none⟩] (fun _ => [⟨some "c1", none⟩])
        (fun _ => [ghostUser])).1.map
      (fun C => (C.uuid, C.projects.map (fun PR => (PR.uuid, PR.members)))))
      = [("c1", [("p1", ([] : List MemberRec))])]
    ∧ ghostUser ∈ (fun _ => [ghostUser]) "p1"
    ∧ ghostUser.companyId = some "c1"
    ∧ strTruthy ghostUser.id = false := by
  exact ⟨rfl, List.mem_cons_self _ _, rfl, rfl⟩

/-- C6 (amended): for every company entry C and every project record PR
listed under it, every embedded member is the projection of a roster
record of that project whose camelCase `companyId` equals `C.uuid` and
whose `id` is truthy; and the embedded members are, up to the name sort, a
permutation of the projections of exactly the roster records passing that
filter — each contributes exactly one member. -/
theorem member_intersection (companies : List RawCompany)
    (users : List RawUser) (projects : List RawProject)
    (fpc : String → List RawCompany) (fpu : String → List RawUser) :
    ∀ C ∈ (buildCompaniesCache companies users projects fpc fpu).1,
    ∀ PR ∈ C.projects,
      (∀ m ∈ PR.members, ∃ pu ∈ fpu PR.uuid,
        pu.companyId = some C.uuid ∧ strTruthy pu.id ∧ m = mkMemberRec pu)
      ∧ PR.members.Perm (((fpu PR.uuid).filter
          (fun pu => pu.companyId == some C.uuid && strTruthy pu.id)).map
        mkMemberRec) := by
  intro C hC PR hPR
  rcases mem_companiesCache.1 hC with ⟨comp, _, _, rfl⟩
  rcases mem_companyEntry_projects.1 hPR with ⟨pid, hpid, rfl⟩
  have hroster := rosterOf_of_mem_companyProjectIds hpid
  constructor
  · intro m hm
    have hm' : m ∈ ((rosterOf (buildProjectMaps projects fpc fpu).2 pid).filter
        (fun pu => pu.companyId == some (orEmpty comp.id)
          && strTruthy pu.id)).map mkMemberRec :=
      (mem_sortJs _ _ _).1 hm
    rcases List.mem_map.1 hm' with ⟨pu, hpu, rfl⟩
    rcases List.mem_filter.1 hpu with ⟨hpu_mem, hpred⟩
    rw [hroster] at hpu_mem
    have hpred' : (pu.companyId == some (orEmpty comp.id)) = true
        ∧ strTruthy pu.id = true := by
      simpa using hpred
    exact ⟨pu, hpu_mem, by simpa using hpred'.1, hpred'.2, rfl⟩
  · show (sortJs memberLe (((rosterOf (buildProjectMaps projects fpc fpu).2
        pid).filter (fun pu => pu.companyId == some (orEmpty comp.id)
          && strTruthy pu.id)).map mkMemberRec)).Perm _
    rw [hroster]
    exact sortJs_perm _ _

/-- C6 witness: the intersection facts at a concrete build whose roster
holds one matching, truthy-id user. -/
def w6u : RawUser := { blankUser with id := some "u1", name := some "Jo", companyId := some "c1" }

def w6fpu : String → List RawUser := fun _ => [w6u]

def w6C : CompanyEntry :=
  mkCompanyEntry (buildUsersByCompany []) (buildProjectsById w1projects)
    (buildProjectMaps w1projects w1fpc w6fpu).1
    (buildProjectMaps w1projects w1fpc w6fpu).2 ⟨some "c1", some "Acme"⟩

def w6PR : ProjectRec :=
  projRecFor (buildProjectsById w1projects)
    (buildProjectMaps w1projects w1fpc w6fpu).2 "c1" "p1"

theorem member_intersection_witness :
    (∀ m ∈ w6PR.members, ∃ pu ∈ w6fpu w6PR.uuid,
      pu.companyId = some w6C.uuid ∧ strTruthy pu.id ∧ m = mkMemberRec pu)
    ∧ w6PR.members.Perm (((w6fpu w6PR.uuid).filter
        (fun pu => pu.companyId == some w6C.uuid && strTruthy pu.id)).map
      mkMemberRec) :=
  member_intersection w1companies [] w1projects w1fpc w6fpu
    w6C (by decide) w6PR (by decide)

-- ── C10: camelCase/snake_case field-shape asymmetry ──────────────────────

/-- An account user carrying only the snake_case `company_id` field. -/
def snakeUser : RawUser := { blankUser with
  id := some "u9", name := some "Sam", company_id := some "c1" }

/-- C10: the embedded-members intersection matches only the camelCase
`companyId` field, while the account-user grouping accepts
`company_id || companyId`.  (1) Every embedded member under company C
stems from a roster record with `companyId = some C.uuid` — a record
carrying only `company_id` can never be such a source.  (2) An account
user whose `company_id || companyId` resolves truthily to C's uuid lands
in C's top-level `users` roster, even with `companyId` absent.  (3) In a
concrete build, the same snake_case-only record is indexed at the account
level but contributes no embedded project member. -/
theorem companyId_field_asymmetry :
    (∀ (companies : List RawCompany) (users : List RawUser)
        (projects : List RawProject) (fpc : String → List RawCompany)
        (fpu : String → List RawUser),
      ∀ C ∈ (buildCompaniesCache companies users projects fpc fpu).1,
      ∀ PR ∈ C.projects, ∀ m ∈ PR.members,
        ∃ pu ∈ fpu PR.uuid, strTruthy pu.id
          ∧ pu.companyId = some C.uuid ∧ m = mkMemberRec pu)
    ∧ (∀ (companies : List RawCompany) (users : List RawUser)
        (projects : List RawProject) (fpc : String → List RawCompany)
        (fpu : String → List RawUser),
      ∀ C ∈ (buildCompaniesCache companies users projects fpc fpu).1,
      ∀ u ∈ users, strTruthy u.id →
        strTruthy (jsOr u.company_id u.companyId) →
        orEmpty (jsOr u.company_id u.companyId) = C.uuid →
        mkMemberRec u ∈ C.users)
    ∧ (((buildCompaniesCache [⟨some "c1", some "A"⟩] [snakeUser]
          [⟨some "p1", some "P", none⟩] (fun _ => [⟨some "c1", none⟩])
          (fun _ => [snakeUser])).1.map
        (fun C => (C.uuid, C.users.map (·.uuid),
          C.projects.map (fun PR => (PR.uuid, PR.members)))))
        = [("c1", ["u9"], [("p1", ([] : List MemberRec))])]
      ∧ snakeUser.companyId = none ∧ snakeUser.company_id = some "c1") := by
  refine ⟨?_, ?_, rfl, rfl, rfl⟩
  · intro companies users projects fpc fpu C hC PR hPR m hm
    rcases mem_companiesCache.1 hC with ⟨comp, _, _, rfl⟩
    rcases mem_companyEntry_projects.1 hPR with ⟨pid, hpid, rfl⟩
    have hroster := rosterOf_of_mem_companyProjectIds hpid
    have hm' : m ∈ ((rosterOf (buildProjectMaps projects fpc fpu).2 pid).filter
        (fun pu => pu.companyId == some (orEmpty comp.id)
          && strTruthy pu.id)).map mkMemberRec :=
      (mem_sortJs _ _ _).1 hm
    rcases List.mem_map.1 hm' with ⟨pu, hpu, rfl⟩
    rcases List.mem_filter.1 hpu with ⟨hpu_mem, hpred⟩
    rw [hroster] at hpu_mem
    have hpred' : (pu.companyId == some (orEmpty comp.id)) = true
        ∧ strTruthy pu.id = true := by
      simpa using hpred
    exact ⟨pu, hpu_mem, hpred'.2, by simpa using hpred'.1, rfl⟩
  · intro companies users projects fpc fpu C hC u hu hid hres hcid
    rcases mem_companiesCache.1 hC with ⟨comp, _, _, rfl⟩
    show mkMemberRec u ∈ sortJs memberLe
      ((((alookup (buildUsersByCompany users) (orEmpty comp.id)).getD
          []).filter (fun v => strTruthy v.id)).map mkMemberRec)
    rw [mem_sortJs]
    apply List.mem_map.2
    refine ⟨u, List.mem_filter.2 ⟨?_, hid⟩, rfl⟩
    rw [alookup_buildUsersByCompany]
    apply List.mem_filter.2
    refine ⟨hu, ?_⟩
    simp only [Bool.and_eq_true, beq_iff_eq]
    exact ⟨hres, hcid⟩

/-- C10 witness: the general facts applied at the concrete
snake_case-only build. -/
def w10build :=
  buildCompaniesCache [⟨some "c1", some "A"⟩] [snakeUser]
    [⟨some "p1", some "P", none⟩] (fun _ => [⟨some "c1", none⟩])
    (fun _ => [snakeUser])

def w10C : CompanyEntry :=
  mkCompanyEntry (buildUsersByCompany [snakeUser])
    (buildProjectsById [⟨some "p1", some "P", none⟩])
    (buildProjectMaps [⟨some "p1", some "P", none⟩]
      (fun _ => [⟨some "c1", none⟩]) (fun _ => [snakeUser])).1
    (buildProjectMaps [⟨some "p1", some "P", none⟩]
      (fun _ => [⟨some "c1", none⟩]) (fun _ => [snakeUser])).2
    ⟨some "c1", some "A"⟩

theorem companyId_field_asymmetry_witness :
    mkMemberRec snakeUser ∈ w10C.users := by
  have h := companyId_field_asymmetry.2.1 [⟨some "c1", some "A"⟩] [snakeUser]
    [⟨some "p1", some "P", none⟩] (fun _ => [⟨some "c1", none⟩])
    (fun _ => [snakeUser]) w10C (by decide) snakeUser
    (List.mem_cons_self _ _) (by decide) (by decide) (by decide)
  exact h

-- ── C2: single-flight guard ──────────────────────────────────────────────

theorem triggerBody_resets_flag (env : BuildEnv) (s : OrchState) :
    (triggerBody env s).state.cacheBuilding = false := by
  unfold triggerBody
  rcases henv : env.tokenResult with e | tok
  · rfl
  · by_cases hacc : strTruthy env.accountId = false
    · simp [hacc]
    · rcases hbr : env.buildResult with e | ⟨cc, pc⟩ <;> simp [hacc, hbr]

/-- C2: single-flight guard.  While the first invocation is in flight, a
second invocation fails immediately with the distinguishable "build already
in progress" error, performs no await step (no fetch) and no storage write,
and leaves the state untouched; the first invocation's outcome is therefore
exactly what it would have been alone; after it settles the in-progress
flag is false again, so a third invocation passes the guard and runs the
build body. -/
theorem single_flight_guard (env1 env2 env3 : BuildEnv) (s0 : OrchState)
    (h : s0.cacheBuilding = false) :
    (singleFlightScenario env1 env2 s0).2.result =
        Except.error "Cache build already in progress."
    ∧ (singleFlightScenario env1 env2 s0).2.steps = []
    ∧ (singleFlightScenario env1 env2 s0).2.writes = []
    ∧ (singleFlightScenario env1 env2 s0).2.state =
        { s0 with cacheBuilding := true }
    ∧ (singleFlightScenario env1 env2 s0).1 = triggerCacheBuild env1 s0
    ∧ (singleFlightScenario env1 env2 s0).1.state.cacheBuilding = false
    ∧ triggerCacheBuild env3 (singleFlightScenario env1 env2 s0).1.state =
        triggerBody env3
          { (singleFlightScenario env1 env2 s0).1.state with
              cacheBuilding := true } := by
  have hsecond :
      triggerCacheBuild env2 { s0 with cacheBuilding := true } =
        ⟨.error "Cache build already in progress.",
          { s0 with cacheBuilding := true }, [], []⟩ := by
    unfold triggerCacheBuild
    simp
  have hfirst :
      (singleFlightScenario env1 env2 s0).1 =
        triggerBody env1 { s0 with cacheBuilding := true } := by
    simp only [singleFlightScenario, hsecond]
  have hflag : (singleFlightScenario env1 env2 s0).1.state.cacheBuilding = false := by
    rw [hfirst]
    exact triggerBody_resets_flag env1 _
  refine ⟨?_, ?_, ?_, ?_, ?_, hflag, ?_⟩
  · simp only [singleFlightScenario, hsecond]
  · simp only [singleFlightScenario, hsecond]
  · simp only [singleFlightScenario, hsecond]
  · simp only [singleFlightScenario, hsecond]
  · rw [hfirst]
    unfold triggerCacheBuild
    simp [h]
  · unfold triggerCacheBuild
    simp [hflag]

/-- A concrete idle orchestrator state. -/
def idleState : OrchState :=
  ⟨false, ⟨none, none, none, none⟩⟩

/-- A concrete environment whose build succeeds with empty caches. -/
def envSucceed : BuildEnv :=
  ⟨.ok "tok", some "acct", .ok ([], []), 42⟩

/-- A concrete environment whose account-level build fails. -/
def envFailBuild : BuildEnv :=
  ⟨.ok "tok", some "acct", .error "API 500 — companies: boom", 42⟩

/-- C2 witness: the single-flight guarantees at a concrete idle state and
concrete environments. -/
theorem single_flight_guard_witness :
    (singleFlightScenario envSucceed envFailBuild idleState).2.result =
        Except.error "Cache build already in progress."
    ∧ (singleFlightScenario envSucceed envFailBuild idleState).2.steps = []
    ∧ (singleFlightScenario envSucceed envFailBuild idleState).2.writes = []
    ∧ (singleFlightScenario envSucceed envFailBuild idleState).2.state =
        { idleState with cacheBuilding := true }
    ∧ (singleFlightScenario envSucceed envFailBuild idleState).1 =
        triggerCacheBuild envSucceed idleState
    ∧ (singleFlightScenario envSucceed envFailBuild idleState).1.state.cacheBuilding
        = false
    ∧ triggerCacheBuild envFailBuild
          (singleFlightScenario envSucceed envFailBuild idleState).1.state =
        triggerBody envFailBuild
          { (singleFlightScenario envSucceed envFailBuild idleState).1.state with
              cacheBuilding := true } :=
  single_flight_guard envSucceed envFailBuild envFailBuild idleState rfl

-- ── C4: persistence atomicity and shared timestamp ───────────────────────

/-- C4: a failed invocation performs no persisted-storage write, leaving
the previous caches and timestamps untouched; a successful one performs
exactly one write carrying both caches and both timestamps, with the
projects timestamp equal to the companies timestamp. -/
theorem persistence_atomicity (env : BuildEnv) (s : OrchState) :
    (∀ e, (triggerCacheBuild env s).result = .error e →
      (triggerCacheBuild env s).writes = []
        ∧ (triggerCacheBuild env s).state.storage = s.storage)
    ∧ (∀ cc, (triggerCacheBuild env s).result = .ok cc →
      ∃ w, (triggerCacheBuild env s).writes = [w]
        ∧ w.companiesCache = cc
        ∧ w.projectsCacheTimestamp = w.companiesCacheTimestamp
        ∧ env.buildResult = .ok (w.companiesCache, w.projectsCache)
        ∧ (triggerCacheBuild env s).state.storage = applyWrite s.storage w) := by
  by_cases hb : s.cacheBuilding
  · unfold triggerCacheBuild
    simp [hb]
  · unfold triggerCacheBuild triggerBody
    rcases henv : env.tokenResult with e | tok
    · simp [hb]
    · by_cases hacc : strTruthy env.accountId = false
      · simp [hb, hacc]
      · rcases hbr : env.buildResult with e | ⟨cc, pc⟩
        · simp [hb, hacc, hbr]
        · simp [hb, hacc, hbr]

/-- C4 witness: atomicity facts evaluated at a concrete state, for one
succeeding and one failing environment. -/
theorem persistence_atomicity_witness :
    ((triggerCacheBuild envFailBuild idleState).writes = []
      ∧ (triggerCacheBuild envFailBuild idleState).state.storage =
          idleState.storage)
    ∧ (∃ w, (triggerCacheBuild envSucceed idleState).writes = [w]
        ∧ w.companiesCache = []
        ∧ w.projectsCacheTimestamp = w.companiesCacheTimestamp
        ∧ envSucceed.buildResult = .ok (w.companiesCache, w.projectsCache)
        ∧ (triggerCacheBuild envSucceed idleState).state.storage =
            applyWrite idleState.storage w) :=
  ⟨(persistence_atomicity envFailBuild idleState).1
      "API 500 — companies: boom" rfl,
   (persistence_atomicity envSucceed idleState).2 [] rfl⟩

end ACC
